import Mathlib

/-!
Verification of the retention-selection logic of `ark.js` (OnMind-ARK).

The development shallowly embeds the pure core of `src/ark.js`: the
calendar arithmetic performed through JavaScript `Date` values (local,
timezone-naive, at day granularity), the `format`/`parse` pair for the
`exportYYYYMMDD.zip` naming convention, and the `rotateBackups` keep-set
computation (daily / weekly / monthly / yearly tiers) together with the
deletion pass.  JavaScript `Date` values that the script manipulates all
sit at day granularity (the time-of-day component is constant within one
run and never influences a formatted key), so a date is modelled as a
calendar triple (year, month, day); millisecond arithmetic on timestamps
(`subDays`, `endOfWeek`) becomes day stepping, which coincides with the
source under the timezone-naive reading the script assumes.
-/

set_option maxRecDepth 8000

namespace Ark

/-- A JavaScript `Date` at day granularity: proleptic Gregorian calendar
triple.  `month` is 1-based (1..12), `day` is 1-based (1..daysInMonth). -/
structure JDate where
  year : Int
  month : Nat
  day : Nat
  deriving DecidableEq, Repr

/-- Gregorian leap-year rule, as implemented by ECMAScript `Date`.
JavaScript's `%` differs from Lean's `%` on negative operands, but the
comparisons with 0 agree, so divisibility is modelled with `Int.emod`. -/
def isLeap (y : Int) : Bool := (y % 4 == 0 && y % 100 != 0) || y % 400 == 0

/-- Number of days in month `m` (1..12) of year `y` (ECMAScript DaysInMonth). -/
def daysInMonth (y : Int) (m : Nat) : Nat :=
  match m with
  | 1 => 31
  | 2 => if isLeap y then 29 else 28
  | 3 => 31
  | 4 => 30
  | 5 => 31
  | 6 => 30
  | 7 => 31
  | 8 => 31
  | 9 => 30
  | 10 => 31
  | 11 => 30
  | 12 => 31
  | _ => 0

/-- Number of days of year `y` that precede month `m` (1..12). -/
def daysBeforeMonth (y : Int) (m : Nat) : Nat :=
  match m with
  | 1 => 0
  | 2 => 31
  | 3 => 59 + (if isLeap y then 1 else 0)
  | 4 => 90 + (if isLeap y then 1 else 0)
  | 5 => 120 + (if isLeap y then 1 else 0)
  | 6 => 151 + (if isLeap y then 1 else 0)
  | 7 => 181 + (if isLeap y then 1 else 0)
  | 8 => 212 + (if isLeap y then 1 else 0)
  | 9 => 243 + (if isLeap y then 1 else 0)
  | 10 => 273 + (if isLeap y then 1 else 0)
  | 11 => 304 + (if isLeap y then 1 else 0)
  | 12 => 334 + (if isLeap y then 1 else 0)
  | _ => 0

/-- A triple denotes an actual calendar date. -/
def JDate.Valid (d : JDate) : Prop :=
  1 ≤ d.month ∧ d.month ≤ 12 ∧ 1 ≤ d.day ∧ d.day ≤ daysInMonth d.year d.month

instance (d : JDate) : Decidable d.Valid := by
  unfold JDate.Valid; infer_instance

/-- Successor date (one day later). -/
def nextDay (d : JDate) : JDate :=
  if d.day < daysInMonth d.year d.month then ⟨d.year, d.month, d.day + 1⟩
  else if d.month < 12 then ⟨d.year, d.month + 1, 1⟩
  else ⟨d.year + 1, 1, 1⟩

/-- Predecessor date (one day earlier). -/
def prevDay (d : JDate) : JDate :=
  if 1 < d.day then ⟨d.year, d.month, d.day - 1⟩
  else if 1 < d.month then ⟨d.year, d.month - 1, daysInMonth d.year (d.month - 1)⟩
  else ⟨d.year - 1, 12, 31⟩

/-- Model of moving a `Date` forward by `n` days of milliseconds. -/
def addDays : JDate → Nat → JDate
  | d, 0 => d
  | d, n + 1 => addDays (nextDay d) n

/-- Model of `subDays(date, days)` from ark.js: move `n` days into the past. -/
def subDays : JDate → Nat → JDate
  | d, 0 => d
  | d, n + 1 => subDays (prevDay d) n

/-- Linear day count of a date (an affine version of the ECMAScript `Day`
number; only differences and residues mod 7 matter).  Day 1 is 0001-01-01. -/
def dayNumber (d : JDate) : Int :=
  365 * (d.year - 1) + (d.year - 1) / 4 - (d.year - 1) / 100 + (d.year - 1) / 400
    + daysBeforeMonth d.year d.month + d.day

/-- Model of `Date.prototype.getDay`: weekday, 0 = Sunday .. 6 = Saturday. -/
def getDay (d : JDate) : Nat := ((dayNumber d) % 7).toNat

/-- Model of `Date.prototype.getMonth`: 0-based month. -/
def getMonth (d : JDate) : Nat := d.month - 1

/-- Signed day shift. -/
def addDaysZ (d : JDate) (k : Int) : JDate :=
  if 0 ≤ k then addDays d k.toNat else subDays d (-k).toNat

/-- Model of the `new Date(y, m, day)` constructor (ECMAScript MakeDay):
years 0..99 are offset by 1900, the 0-based month index `m` rolls over into
the year by floor division, and the day value rolls over by day arithmetic
relative to day 1 of the resolved month. -/
def mkDate (y m dd : Int) : JDate :=
  let yr := if 0 ≤ y ∧ y ≤ 99 then y + 1900 else y
  let t := yr * 12 + m
  addDaysZ ⟨t / 12, (t % 12).toNat + 1, 1⟩ (dd - 1)

/-- Model of `startOfMonth` from ark.js: `new Date(y, getMonth(d), 1)`. -/
def startOfMonth (d : JDate) : JDate := mkDate d.year (getMonth d) 1

/-- Model of `endOfMonth` from ark.js: `new Date(y, getMonth(d) + 1, 0)`. -/
def endOfMonth (d : JDate) : JDate := mkDate d.year ((getMonth d : Int) + 1) 0

/-- Model of `endOfYear` from ark.js: `new Date(y, 11, 31)`. -/
def endOfYear (d : JDate) : JDate := mkDate d.year 11 31

/-- Model of `isSameMonth` from ark.js: same `getFullYear` and `getMonth`. -/
def isSameMonth (d1 d2 : JDate) : Bool :=
  d1.year == d2.year && getMonth d1 == getMonth d2

/-- Model of `endOfWeek` from ark.js: the Sunday on or after `d`. -/
def endOfWeek (d : JDate) : JDate :=
  let day := getDay d
  let diff := if day == 0 then 0 else 7 - day
  addDays d diff

/-- Decimal digit character for `n` in 0..9. -/
def digitChar (n : Nat) : Char :=
  match n with
  | 0 => '0'
  | 1 => '1'
  | 2 => '2'
  | 3 => '3'
  | 4 => '4'
  | 5 => '5'
  | 6 => '6'
  | 7 => '7'
  | 8 => '8'
  | _ => '9'

/-- Fueled decimal rendering of a natural number, most significant digit
first.  Fuel 24 is enough for every value below 10^24, far beyond any
quantity the script manipulates. -/
def digitsAux : Nat → Nat → List Char
  | 0, _ => []
  | fuel + 1, n =>
    if n < 10 then [digitChar n]
    else digitsAux fuel (n / 10) ++ [digitChar (n % 10)]

/-- Decimal rendering of a natural number (JavaScript `String(n)`). -/
def digitsOf (n : Nat) : List Char := digitsAux 24 n

/-- Model of JavaScript number-to-string for integers (`String(i)` and
template interpolation): decimal digits, a leading minus for negatives. -/
def intToChars (i : Int) : List Char :=
  if i < 0 then '-' :: digitsOf (-i).toNat else digitsOf i.toNat

/-- Model of `String(n).padStart(2, zero)` from ark.js `format`. -/
def pad2 (n : Nat) : List Char :=
  if n < 10 then '0' :: digitsOf n else digitsOf n

/-- Character content of `format(date)` from ark.js: year digits followed
by zero-padded month and day (the year itself is not padded). -/
def formatChars (d : JDate) : List Char :=
  intToChars d.year ++ pad2 d.month ++ pad2 d.day

/-- Model of `format` from ark.js, producing the `YYYYMMDD` key string. -/
def format (d : JDate) : String := ⟨formatChars d⟩

/-- Snapshot filename for a date: `export` + format + `.zip`. -/
def keyOf (d : JDate) : String := "export" ++ format d ++ ".zip"

/-- Numeric value accumulated from a run of decimal digit characters. -/
def valOf (cs : List Char) : Nat := cs.foldl (fun a c => 10 * a + (c.toNat - 48)) 0

/-- UTF-16 encoding of one code point: one code unit for the BMP, a
surrogate pair for the rest.  JavaScript strings are sequences of UTF-16
code units, and `slice`, `length` and `parseInt` all work on them. -/
def utf16Char (c : Char) : List Nat :=
  if c.toNat < 65536 then [c.toNat]
  else [55296 + (c.toNat - 65536) / 1024, 56320 + (c.toNat - 65536) % 1024]

/-- UTF-16 code units of a sequence of code points. -/
def utf16 : List Char → List Nat
  | [] => []
  | c :: rest => utf16Char c ++ utf16 rest

/-- ECMAScript StrWhiteSpaceChar, as a predicate on UTF-16 code units:
WhiteSpace (tab 9, VT 11, FF 12, space 32, NBSP 160, ZWNBSP 65279 and the
Zs space separators 5760, 8192..8202, 8239, 8287, 12288) together with the
LineTerminators (LF 10, CR 13, LS 8232, PS 8233).  `parseInt` skips a
prefix of these. -/
def isJsWhiteU (u : Nat) : Bool :=
  u == 9 || u == 10 || u == 11 || u == 12 || u == 13 || u == 32
    || u == 160 || u == 5760 || (8192 ≤ u && u ≤ 8202) || u == 8232
    || u == 8233 || u == 8239 || u == 8287 || u == 12288 || u == 65279

/-- Is the code unit a decimal digit (0..9). -/
def isDigitU (u : Nat) : Bool := 48 ≤ u && u ≤ 57

/-- Is the code unit a hexadecimal digit (0..9, a..f, A..F). -/
def isHexDigitU (u : Nat) : Bool :=
  (48 ≤ u && u ≤ 57) || (97 ≤ u && u ≤ 102) || (65 ≤ u && u ≤ 70)

/-- Value of a hexadecimal digit code unit. -/
def hexDigitValU (u : Nat) : Nat :=
  if u ≤ 57 then u - 48 else if 97 ≤ u then u - 87 else u - 55

/-- Base-10 value of a run of decimal digit code units. -/
def decValU (us : List Nat) : Nat := us.foldl (fun a u => 10 * a + (u - 48)) 0

/-- Base-16 value of a run of hexadecimal digit code units. -/
def hexValU (us : List Nat) : Nat := us.foldl (fun a u => 16 * a + hexDigitValU u) 0

/-- Core of ECMAScript `parseInt` after whitespace and sign: with no radix
argument the radix is 10, unless the input starts with `0x` or `0X`
(units 48 then 120 or 88), which switches to 16 and is stripped; then the
longest prefix of digits of that radix is converted, and an empty run is
NaN (`none`). -/
def jsParseIntCore (neg : Bool) (s : List Nat) : Option Int :=
  if s.head? = some 48 ∧ (s.tail.head? = some 120 ∨ s.tail.head? = some 88) then
    if (s.tail.tail.takeWhile isHexDigitU).isEmpty then none
    else if neg then some (-(hexValU (s.tail.tail.takeWhile isHexDigitU) : Int))
    else some ((hexValU (s.tail.tail.takeWhile isHexDigitU) : Int))
  else
    if (s.takeWhile isDigitU).isEmpty then none
    else if neg then some (-(decValU (s.takeWhile isDigitU) : Int))
    else some ((decValU (s.takeWhile isDigitU) : Int))

/-- Sign step of ECMAScript `parseInt`: an optional minus (unit 45) or
plus (unit 43) before the number body. -/
def jsParseSign (s : List Nat) : Option Int :=
  if s.head? = some 45 then jsParseIntCore true s.tail
  else if s.head? = some 43 then jsParseIntCore false s.tail
  else jsParseIntCore false s

/-- Model of JavaScript `parseInt(s)` (radix argument absent) on the UTF-16
code units of `s`: skip leading StrWhiteSpaceChar units, read an optional
sign, honour a `0x`/`0X` prefix, convert the longest digit run of the
resulting radix; `none` stands for NaN. -/
def jsParseInt (us : List Nat) : Option Int :=
  jsParseSign (us.dropWhile isJsWhiteU)

/-- Model of `str.slice(a, b)` on the UTF-16 code units of `str`, as
JavaScript slices by code unit. -/
def slice (us : List Nat) (a b : Nat) : List Nat := (us.take b).drop a

/-- Model of `parse` from ark.js:
`new Date(parseInt(s.slice(0,4)), parseInt(s.slice(4,6)) - 1, parseInt(s.slice(6,8)))`,
taking the UTF-16 code units of the string.  `none` models an Invalid Date
(some component was NaN); note that an in-range numeric triple that is not
a real calendar date does NOT fail here — the constructor rolls it over,
exactly as JavaScript does. -/
def parse (us : List Nat) : Option JDate :=
  match jsParseInt (slice us 0 4), jsParseInt (slice us 4 6), jsParseInt (slice us 6 8) with
  | some y, some m, some dd => some (mkDate y (m - 1) dd)
  | _, _, _ => none

/-- Model of the filename filter in `rotateBackups`:
`f.startsWith(export) && f.endsWith(zip)`, compared on UTF-16 code units
as JavaScript does. -/
def isBackupName (f : String) : Bool :=
  ("export".data.map Char.toNat).isPrefixOf (utf16 f.data)
    && (".zip".data.map Char.toNat).isSuffixOf (utf16 f.data)

/-- Model of `f.slice(6, -4)`: the presumed date portion of a filename, as
UTF-16 code units (JavaScript `length` and `slice` count code units). -/
def sliceName (f : String) : List Nat :=
  ((utf16 f.data).take ((utf16 f.data).length - 4)).drop 6

/-- Model of `files.filter(f => f.startsWith(export) && f.endsWith(zip))`. -/
def backupFiles (files : List String) : List String := files.filter isBackupName

/-- Model of the `backups` list in `rotateBackups`: each filtered filename
paired with its parsed date, dropping entries whose date is Invalid
(`isNaN(b.date.getTime())`). -/
def backupsOf (files : List String) : List (String × JDate) :=
  (backupFiles files).filterMap fun f => (parse (sliceName f)).map fun d => (f, d)

/-- Daily tier of `rotateBackups`: keys for `now - i`, i = 0..6. -/
def dailyKeys (now : JDate) : List String :=
  (List.range 7).map fun i => keyOf (subDays now i)

/-- Loop condition of the weekly tier:
`isSameMonth(weekEndDate, now) && weekEndDate >= currentMonthStart`
(the timestamp comparison is the day-number comparison at day granularity). -/
def weeklyCond (now d : JDate) : Bool :=
  isSameMonth d now && decide (dayNumber (startOfMonth now) ≤ dayNumber d)

/-- The weekly while-loop of `rotateBackups`, fuelled by the remaining
iteration budget of the `weekCount < 10` cap. -/
def weeklyLoop (now : JDate) : Nat → JDate → List JDate
  | 0, _ => []
  | fuel + 1, d =>
    if weeklyCond now d then d :: weeklyLoop now fuel (endOfWeek (subDays d 7))
    else []

/-- Dates collected by the weekly tier: the loop starts at
`endOfWeek(subDays(now, 7))` with a cap of 10 iterations. -/
def weeklyDates (now : JDate) : List JDate :=
  weeklyLoop now 10 (endOfWeek (subDays now 7))

/-- Keys of the weekly tier. -/
def weeklyKeys (now : JDate) : List String := (weeklyDates now).map keyOf

/-- The stream of candidate dates the weekly loop would visit, cut at
`fuel` entries: the loop steps through exactly these, in this order. -/
def weeklyCands : Nat → JDate → List JDate
  | 0, _ => []
  | fuel + 1, d => d :: weeklyCands fuel (endOfWeek (subDays d 7))

/-- Monthly tier of `rotateBackups`: for m = 1 .. getMonth(now), the key of
`endOfMonth(new Date(year, getMonth(now) - m, 1))`. -/
def monthlyKeys (now : JDate) : List String :=
  (List.range (getMonth now)).map fun (i : Nat) =>
    keyOf (endOfMonth (mkDate now.year ((getMonth now : Int) - ((i : Int) + 1)) 1))

/-- Model of `Math.min(...backups.map(b => b.year))` (0 on the empty list,
on which the source never calls it). -/
def minYearOf (bs : List (String × JDate)) : Int :=
  match bs with
  | [] => 0
  | b :: rest => (rest.map fun x => x.2.year).foldl min b.2.year

/-- Integer range [a, b) as a list, empty when b ≤ a. -/
def intRange (a b : Int) : List Int :=
  (List.range (b - a).toNat).map fun (i : Nat) => a + (i : Int)

/-- Yearly tier of `rotateBackups`: when any backup parsed, for each year y
from the minimum parsed year up to (excluding) now's year, the key of
`endOfYear(new Date(y, 0, 1))`. -/
def yearlyKeys (bs : List (String × JDate)) (now : JDate) : List String :=
  if bs.isEmpty then []
  else (intRange (minYearOf bs) now.year).map fun y => keyOf (endOfYear (mkDate y 0 1))

/-- The `toKeep` set of `rotateBackups`, as the list of inserted keys
(membership is what the `Set` provides). -/
def toKeep (now : JDate) (files : List String) : List String :=
  dailyKeys now ++ weeklyKeys now ++ monthlyKeys now ++ yearlyKeys (backupsOf files) now

/-- The files `rotateBackups` attempts to delete: parsed backups whose
filename is not in `toKeep`, in directory order. -/
def deleteSet (now : JDate) (files : List String) : List String :=
  ((backupsOf files).filter fun b => !((toKeep now files).contains b.1)).map Prod.fst

/-- Lexicographic (calendar) strict order on date triples. -/
def lexLt (a b : JDate) : Prop :=
  a.year < b.year ∨
    (a.year = b.year ∧ (a.month < b.month ∨ (a.month = b.month ∧ a.day < b.day)))

/-- Model of the deletion for-loop of `rotateBackups` with an explicit
filesystem: `unlink f` is `fs.unlink`'s outcome on `f`.  Returns the files
actually unlinked before the run ended and the error, if one occurred.  An
`await fs.unlink` rejection is an exception, so the loop stops at the
first failing file (there is no try/catch around it in the source) and the
error propagates to `main`'s catch block. -/
def deleteRun (unlink : String → Except String Unit) (keep : List String) :
    List (String × JDate) → List String × Option String
  | [] => ([], none)
  | b :: rest =>
    if keep.contains b.1 then deleteRun unlink keep rest
    else
      match unlink b.1 with
      | .error e => ([], some e)
      | .ok _ =>
        let r := deleteRun unlink keep rest
        (b.1 :: r.1, r.2)

/-! ## Calendar arithmetic lemmas -/

theorem dayNumber_mk (y : Int) (m dd : Nat) :
    dayNumber ⟨y, m, dd⟩ = 365 * (y - 1) + (y - 1) / 4 - (y - 1) / 100 + (y - 1) / 400
      + daysBeforeMonth y m + dd := rfl

theorem valid_mk (y : Int) (m dd : Nat) :
    JDate.Valid ⟨y, m, dd⟩ ↔ 1 ≤ m ∧ m ≤ 12 ∧ 1 ≤ dd ∧ dd ≤ daysInMonth y m := Iff.rfl

theorem daysInMonth_pos (y : Int) (m : Nat) (h1 : 1 ≤ m) (h2 : m ≤ 12) :
    1 ≤ daysInMonth y m := by
  interval_cases m
  all_goals simp [daysInMonth]
  all_goals split_ifs <;> omega

theorem daysInMonth_le (y : Int) (m : Nat) : daysInMonth y m ≤ 31 := by
  unfold daysInMonth
  split <;> first | omega | (split_ifs <;> omega)

theorem dbm_step (y : Int) (m : Nat) (h1 : 1 ≤ m) (h2 : m ≤ 11) :
    daysBeforeMonth y (m + 1) = daysBeforeMonth y m + daysInMonth y m := by
  interval_cases m <;> simp [daysInMonth, daysBeforeMonth] <;> split_ifs <;> omega

theorem dbm_mono (y : Int) (m1 m2 : Nat) (h1 : 1 ≤ m1) (h : m1 ≤ m2) (h2 : m2 ≤ 12) :
    daysBeforeMonth y m1 ≤ daysBeforeMonth y m2 := by
  induction m2 with
  | zero => omega
  | succ k ih =>
    rcases Nat.lt_or_ge m1 (k + 1) with hlt | hge
    · have hk := ih (by omega) (by omega)
      have hs := dbm_step y k (by omega) (by omega)
      omega
    · have he : m1 = k + 1 := by omega
      rw [he]

theorem dbm_le (y : Int) (m1 m2 : Nat) (h1 : 1 ≤ m1) (h : m1 < m2) (h2 : m2 ≤ 12) :
    daysBeforeMonth y m1 + daysInMonth y m1 ≤ daysBeforeMonth y m2 := by
  have hs := dbm_step y m1 h1 (by omega)
  have := dbm_mono y (m1 + 1) m2 (by omega) (by omega) h2
  omega

theorem leapSteps (y : Int) :
    (y / 4 - (y - 1) / 4) - (y / 100 - (y - 1) / 100) + (y / 400 - (y - 1) / 400)
      = (if isLeap y then (1 : Int) else 0) := by
  simp only [isLeap, Bool.or_eq_true, Bool.and_eq_true, beq_iff_eq, bne_iff_ne]
  split_ifs with h <;> omega

theorem valid_nextDay {d : JDate} (h : d.Valid) : (nextDay d).Valid := by
  obtain ⟨y, m, dd⟩ := d
  rw [valid_mk] at h
  obtain ⟨hm1, hm2, hd1, hd2⟩ := h
  unfold nextDay
  dsimp only
  split_ifs with h1 h2
  · rw [valid_mk]; omega
  · rw [valid_mk]
    have := daysInMonth_pos y (m + 1) (by omega) (by omega)
    omega
  · rw [valid_mk]
    have h31 : daysInMonth (y + 1) 1 = 31 := rfl
    omega

theorem dayNumber_nextDay {d : JDate} (h : d.Valid) :
    dayNumber (nextDay d) = dayNumber d + 1 := by
  obtain ⟨y, m, dd⟩ := d
  rw [valid_mk] at h
  obtain ⟨hm1, hm2, hd1, hd2⟩ := h
  unfold nextDay
  dsimp only
  split_ifs with h1 h2
  · rw [dayNumber_mk, dayNumber_mk]; push_cast; ring
  · rw [dayNumber_mk, dayNumber_mk]
    have hs := dbm_step y m hm1 (by omega)
    omega
  · have hm : m = 12 := by omega
    subst hm
    have h31 : daysInMonth y 12 = 31 := rfl
    have hd : dd = 31 := by omega
    subst hd
    rw [dayNumber_mk, dayNumber_mk]
    have hL := leapSteps y
    have h334 : daysBeforeMonth y 12 = 334 + (if isLeap y then 1 else 0) := rfl
    have h0 : daysBeforeMonth (y + 1) 1 = 0 := rfl
    rw [h334, h0]
    split_ifs at hL ⊢ <;> push_cast <;> omega

theorem valid_prevDay {d : JDate} (h : d.Valid) : (prevDay d).Valid := by
  obtain ⟨y, m, dd⟩ := d
  rw [valid_mk] at h
  obtain ⟨hm1, hm2, hd1, hd2⟩ := h
  unfold prevDay
  dsimp only
  split_ifs with h1 h2
  · rw [valid_mk]; omega
  · rw [valid_mk]
    have := daysInMonth_pos y (m - 1) (by omega) (by omega)
    omega
  · rw [valid_mk]
    have h31 : daysInMonth (y - 1) 12 = 31 := rfl
    omega

theorem dayNumber_prevDay {d : JDate} (h : d.Valid) :
    dayNumber (prevDay d) = dayNumber d - 1 := by
  obtain ⟨y, m, dd⟩ := d
  rw [valid_mk] at h
  obtain ⟨hm1, hm2, hd1, hd2⟩ := h
  unfold prevDay
  dsimp only
  split_ifs with h1 h2
  · rw [dayNumber_mk, dayNumber_mk]; omega
  · rw [dayNumber_mk, dayNumber_mk]
    have hs := dbm_step y (m - 1) (by omega) (by omega)
    have hmm : m - 1 + 1 = m := by omega
    rw [hmm] at hs
    omega
  · have hm : m = 1 := by omega
    subst hm
    have hd : dd = 1 := by omega
    subst hd
    rw [dayNumber_mk, dayNumber_mk]
    have hL := leapSteps (y - 1)
    have h334 : daysBeforeMonth (y - 1) 12 = 334 + (if isLeap (y - 1) then 1 else 0) := rfl
    have h0 : daysBeforeMonth y 1 = 0 := rfl
    rw [h334, h0]
    split_ifs at hL ⊢ <;> push_cast <;> omega

theorem valid_addDays {d : JDate} (h : d.Valid) (n : Nat) : (addDays d n).Valid := by
  induction n generalizing d with
  | zero => exact h
  | succ k ih => exact ih (valid_nextDay h)

theorem dayNumber_addDays {d : JDate} (h : d.Valid) (n : Nat) :
    dayNumber (addDays d n) = dayNumber d + n := by
  induction n generalizing d with
  | zero => simp [addDays]
  | succ k ih =>
    have := ih (valid_nextDay h)
    have hn := dayNumber_nextDay h
    simp only [addDays] at *
    omega

theorem valid_subDays {d : JDate} (h : d.Valid) (n : Nat) : (subDays d n).Valid := by
  induction n generalizing d with
  | zero => exact h
  | succ k ih => exact ih (valid_prevDay h)

theorem dayNumber_subDays {d : JDate} (h : d.Valid) (n : Nat) :
    dayNumber (subDays d n) = dayNumber d - n := by
  induction n generalizing d with
  | zero => simp [subDays]
  | succ k ih =>
    have := ih (valid_prevDay h)
    have hn := dayNumber_prevDay h
    simp only [subDays] at *
    omega

/-! ## Day numbers order dates exactly as the calendar does -/

theorem dayNumber_le_yearEnd {y : Int} {m dd : Nat} (h : JDate.Valid ⟨y, m, dd⟩) :
    dayNumber ⟨y, m, dd⟩ ≤ dayNumber ⟨y, 12, 31⟩ := by
  rw [valid_mk] at h
  obtain ⟨hm1, hm2, hd1, hd2⟩ := h
  rw [dayNumber_mk, dayNumber_mk]
  rcases Nat.lt_or_ge m 12 with hlt | hge
  · have := dbm_le y m 12 hm1 hlt (by omega)
    have h31 : daysInMonth y 12 = 31 := rfl
    omega
  · have hm : m = 12 := by omega
    subst hm
    have h31 : daysInMonth y 12 = 31 := rfl
    omega

theorem yearStart_le_dayNumber {y : Int} {m dd : Nat} (h : JDate.Valid ⟨y, m, dd⟩) :
    dayNumber ⟨y, 1, 1⟩ ≤ dayNumber ⟨y, m, dd⟩ := by
  rw [valid_mk] at h
  obtain ⟨hm1, hm2, hd1, hd2⟩ := h
  rw [dayNumber_mk, dayNumber_mk]
  have := dbm_mono y 1 m (by omega) hm1 hm2
  have h0 : daysBeforeMonth y 1 = 0 := rfl
  omega

theorem yearStart_mono (y1 y2 : Int) (h : y1 ≤ y2) :
    dayNumber ⟨y1, 1, 1⟩ ≤ dayNumber ⟨y2, 1, 1⟩ := by
  rw [dayNumber_mk, dayNumber_mk]
  have h1 : daysBeforeMonth y1 1 = 0 := rfl
  have h2 : daysBeforeMonth y2 1 = 0 := rfl
  omega

theorem yearEnd_succ (y : Int) :
    dayNumber ⟨y, 12, 31⟩ + 1 = dayNumber ⟨y + 1, 1, 1⟩ := by
  have hv : JDate.Valid ⟨y, 12, 31⟩ := by
    rw [valid_mk]
    have h31 : daysInMonth y 12 = 31 := rfl
    omega
  have hn : nextDay ⟨y, 12, 31⟩ = ⟨y + 1, 1, 1⟩ := by
    unfold nextDay
    have h31 : daysInMonth y 12 = 31 := rfl
    dsimp only
    rw [h31]
    norm_num
  have := dayNumber_nextDay hv
  rw [hn] at this
  omega

theorem dayNumber_lt_of_lexLt {a b : JDate} (ha : a.Valid) (hb : b.Valid) (h : lexLt a b) :
    dayNumber a < dayNumber b := by
  obtain ⟨ya, ma, da⟩ := a
  obtain ⟨yb, mb, db⟩ := b
  rw [valid_mk] at ha hb
  obtain ⟨ham1, ham2, had1, had2⟩ := ha
  obtain ⟨hbm1, hbm2, hbd1, hbd2⟩ := hb
  unfold lexLt at h
  dsimp only at h
  rcases h with hy | ⟨hy, hm | ⟨hm, hd⟩⟩
  · have h1 : dayNumber ⟨ya, ma, da⟩ ≤ dayNumber ⟨ya, 12, 31⟩ :=
      dayNumber_le_yearEnd (by rw [valid_mk]; exact ⟨ham1, ham2, had1, had2⟩)
    have h2 := yearEnd_succ ya
    have h3 := yearStart_mono (ya + 1) yb (by omega)
    have h4 : dayNumber ⟨yb, 1, 1⟩ ≤ dayNumber ⟨yb, mb, db⟩ :=
      yearStart_le_dayNumber (by rw [valid_mk]; exact ⟨hbm1, hbm2, hbd1, hbd2⟩)
    omega
  · subst hy
    have := dbm_le ya ma mb ham1 hm hbm2
    rw [dayNumber_mk, dayNumber_mk]
    omega
  · subst hy; subst hm
    rw [dayNumber_mk, dayNumber_mk]
    omega

theorem lexLt_total (a b : JDate) :
    lexLt a b ∨ (a.year = b.year ∧ a.month = b.month ∧ a.day = b.day) ∨ lexLt b a := by
  unfold lexLt
  omega

theorem jdate_ext {a b : JDate} (hy : a.year = b.year) (hm : a.month = b.month)
    (hd : a.day = b.day) : a = b := by
  obtain ⟨ya, ma, da⟩ := a
  obtain ⟨yb, mb, db⟩ := b
  dsimp only at hy hm hd
  rw [hy, hm, hd]

theorem dayNumber_lt_iff {a b : JDate} (ha : a.Valid) (hb : b.Valid) :
    dayNumber a < dayNumber b ↔ lexLt a b := by
  constructor
  · intro h
    rcases lexLt_total a b with hl | he | hg
    · exact hl
    · exact absurd (jdate_ext he.1 he.2.1 he.2.2 ▸ h) (lt_irrefl _)
    · exact absurd (dayNumber_lt_of_lexLt hb ha hg) (by omega)
  · exact dayNumber_lt_of_lexLt ha hb

theorem dayNumber_inj {a b : JDate} (ha : a.Valid) (hb : b.Valid)
    (h : dayNumber a = dayNumber b) : a = b := by
  rcases lexLt_total a b with hl | he | hg
  · exact absurd (dayNumber_lt_of_lexLt ha hb hl) (by omega)
  · exact jdate_ext he.1 he.2.1 he.2.2
  · exact absurd (dayNumber_lt_of_lexLt hb ha hg) (by omega)

theorem sameMonth_of_between {x now : JDate} (hx : x.Valid) (hn : now.Valid)
    (h1 : dayNumber ⟨now.year, now.month, 1⟩ ≤ dayNumber x)
    (h2 : dayNumber x ≤ dayNumber now) :
    x.year = now.year ∧ x.month = now.month := by
  have hsv : JDate.Valid ⟨now.year, now.month, 1⟩ := by
    rw [valid_mk]
    have := daysInMonth_pos now.year now.month hn.1 hn.2.1
    exact ⟨hn.1, hn.2.1, by omega, this⟩
  have ha : ¬ lexLt x ⟨now.year, now.month, 1⟩ := by
    intro hc
    have := dayNumber_lt_of_lexLt hx hsv hc
    omega
  have hb : ¬ lexLt now x := by
    intro hc
    have := dayNumber_lt_of_lexLt hn hx hc
    omega
  unfold lexLt at ha hb
  dsimp only at ha hb
  have hd1 := hx.2.2.1
  omega

/-! ## Weekday and endOfWeek lemmas -/

theorem getDay_lt (d : JDate) : getDay d < 7 := by
  unfold getDay
  omega

theorem getDay_eq_mod (d : JDate) : (getDay d : Int) = dayNumber d % 7 := by
  unfold getDay
  omega

theorem getDay_subDays_mul7 {d : JDate} (h : d.Valid) (k : Nat) :
    getDay (subDays d (7 * k)) = getDay d := by
  unfold getDay
  rw [dayNumber_subDays h]
  omega

theorem valid_endOfWeek {d : JDate} (h : d.Valid) : (endOfWeek d).Valid :=
  valid_addDays h _

theorem dayNumber_endOfWeek {d : JDate} (h : d.Valid) :
    dayNumber (endOfWeek d) = dayNumber d + (if getDay d = 0 then 0 else 7 - getDay d) := by
  unfold endOfWeek
  rw [dayNumber_addDays h]
  rcases Nat.eq_zero_or_pos (getDay d) with h0 | h0
  · simp [h0]
  · have : (getDay d == 0) = false := by
      simp only [beq_eq_false_iff_ne, ne_eq]
      omega
    rw [this]
    simp only [Bool.false_eq_true, if_false]
    have := getDay_lt d
    split_ifs <;> omega

theorem getDay_endOfWeek {d : JDate} (h : d.Valid) : getDay (endOfWeek d) = 0 := by
  have hg := getDay_eq_mod d
  have hlt := getDay_lt d
  have he := dayNumber_endOfWeek h
  unfold getDay
  rw [he]
  split_ifs with h0 <;> omega

theorem endOfWeek_bounds {d : JDate} (h : d.Valid) :
    dayNumber d ≤ dayNumber (endOfWeek d) ∧ dayNumber (endOfWeek d) ≤ dayNumber d + 6 := by
  rw [dayNumber_endOfWeek h]
  have := getDay_lt d
  split_ifs <;> omega

theorem endOfWeek_of_sunday {d : JDate} (h0 : getDay d = 0) : endOfWeek d = d := by
  unfold endOfWeek
  rw [h0]
  rfl

theorem weeklyStep_of_sunday {d : JDate} (h : d.Valid) (h0 : getDay d = 0) :
    endOfWeek (subDays d 7) = subDays d 7 := by
  apply endOfWeek_of_sunday
  have h7 := getDay_subDays_mul7 h 1
  rw [Nat.mul_one] at h7
  rw [h7, h0]

/-! ## Evaluation lemmas for the Date constructor -/

theorem addDaysZ_zero (d : JDate) : addDaysZ d 0 = d := rfl

theorem mkDate_eval (y : Int) (hy : ¬ (0 ≤ y ∧ y ≤ 99)) (mm : Nat) (hmm : mm ≤ 11)
    (dd : Int) : mkDate y (mm : Int) dd = addDaysZ ⟨y, mm + 1, 1⟩ (dd - 1) := by
  unfold mkDate
  rw [if_neg hy]
  dsimp only
  have h1 : (y * 12 + (mm : Int)) / 12 = y := by omega
  have h2 : ((y * 12 + (mm : Int)) % 12).toNat = mm := by omega
  rw [h1, h2]

theorem addDays_in_month {y : Int} {m dday : Nat} (n : Nat)
    (hd : 1 ≤ dday) (h : dday + n ≤ daysInMonth y m) :
    addDays ⟨y, m, dday⟩ n = ⟨y, m, dday + n⟩ := by
  induction n generalizing dday with
  | zero => rfl
  | succ k ih =>
    have hstep : nextDay ⟨y, m, dday⟩ = ⟨y, m, dday + 1⟩ := by
      unfold nextDay
      dsimp only
      rw [if_pos (by omega)]
    show addDays (nextDay ⟨y, m, dday⟩) k = _
    rw [hstep, ih (by omega) (by omega)]
    congr 1
    omega

theorem addDaysZ_of_nonneg (d : JDate) (n : Nat) : addDaysZ d ((n : Int)) = addDays d n := by
  unfold addDaysZ
  rw [if_pos (Int.ofNat_nonneg n)]
  simp

theorem mkDate_month1 (y : Int) (hy : ¬ (0 ≤ y ∧ y ≤ 99)) (mm : Nat) (hmm : mm ≤ 11) :
    mkDate y (mm : Int) 1 = ⟨y, mm + 1, 1⟩ := by
  rw [mkDate_eval y hy mm hmm 1]
  exact addDaysZ_zero _

theorem startOfMonth_eval {d : JDate} (h : d.Valid) (hy : ¬ (0 ≤ d.year ∧ d.year ≤ 99)) :
    startOfMonth d = ⟨d.year, d.month, 1⟩ := by
  unfold startOfMonth
  have hmm : getMonth d ≤ 11 := by
    unfold getMonth
    have := h.2.1
    omega
  rw [mkDate_month1 d.year hy (getMonth d) hmm]
  congr 1
  unfold getMonth
  have := h.1
  omega

theorem prevDay_monthStart {y : Int} {m : Nat} (hm1 : 2 ≤ m) (hm2 : m ≤ 12) :
    prevDay ⟨y, m, 1⟩ = ⟨y, m - 1, daysInMonth y (m - 1)⟩ := by
  unfold prevDay
  dsimp only
  rw [if_neg (by omega), if_pos (by omega)]

theorem endOfMonth_eval {d : JDate} (h : d.Valid) (hy : ¬ (0 ≤ d.year ∧ d.year ≤ 99))
    (hm : d.month ≤ 11) :
    endOfMonth d = ⟨d.year, d.month, daysInMonth d.year d.month⟩ := by
  unfold endOfMonth
  have hgm : ((getMonth d : Int) + 1) = ((d.month : Nat) : Int) := by
    unfold getMonth
    have := h.1
    omega
  rw [hgm, mkDate_eval d.year hy d.month hm 0]
  show prevDay ⟨d.year, d.month + 1, 1⟩ = ⟨d.year, d.month, daysInMonth d.year d.month⟩
  rw [prevDay_monthStart (by omega) (by omega)]
  simp

theorem endOfYear_eval (y : Int) (hy : ¬ (0 ≤ y ∧ y ≤ 99)) (d : JDate) (hd : d.year = y) :
    endOfYear d = ⟨y, 12, 31⟩ := by
  unfold endOfYear
  rw [hd]
  have h11 : ((11 : Int)) = ((11 : Nat) : Int) := rfl
  rw [h11, mkDate_eval y hy 11 (by omega) 31]
  have h30 : (31 : Int) - 1 = ((30 : Nat) : Int) := by norm_num
  rw [h30, addDaysZ_of_nonneg]
  rw [addDays_in_month 30 (by omega) (by norm_num [daysInMonth])]

/-! ## Decimal digit strings -/

theorem digitChar_toNat {n : Nat} (h : n ≤ 9) : (digitChar n).toNat = 48 + n := by
  interval_cases n <;> rfl

theorem digitChar_range {n : Nat} (h : n ≤ 9) :
    48 ≤ (digitChar n).toNat ∧ (digitChar n).toNat ≤ 57 := by
  rw [digitChar_toNat h]
  omega

theorem valOf_append_one (cs : List Char) (c : Char) :
    valOf (cs ++ [c]) = 10 * valOf cs + (c.toNat - 48) := by
  unfold valOf
  rw [List.foldl_append]
  rfl

theorem digitsAux_spec (fuel : Nat) :
    ∀ n : Nat, n < 10 ^ fuel →
      (digitsAux (fuel + 1) n ≠ [] ∧
        (∀ c ∈ digitsAux (fuel + 1) n, 48 ≤ c.toNat ∧ c.toNat ≤ 57) ∧
        valOf (digitsAux (fuel + 1) n) = n) := by
  induction fuel with
  | zero =>
    intro n hn
    have h0 : n = 0 := by omega
    subst h0
    refine ⟨by decide, by decide, by decide⟩
  | succ k ih =>
    intro n hn
    show digitsAux (k + 1 + 1) n ≠ [] ∧ _ ∧ _
    rw [digitsAux]
    split_ifs with h10
    · refine ⟨by simp, ?_, ?_⟩
      · intro c hc
        simp only [List.mem_singleton] at hc
        subst hc
        exact digitChar_range (by omega)
      · unfold valOf
        simp [digitChar_toNat (show n ≤ 9 by omega)]
    · have hdiv : n / 10 < 10 ^ k := by
        have : (10 : Nat) ^ (k + 1) = 10 ^ k * 10 := by ring
        omega
      obtain ⟨hne, hdig, hval⟩ := ih (n / 10) hdiv
      refine ⟨by simp, ?_, ?_⟩
      · intro c hc
        rw [List.mem_append] at hc
        rcases hc with hc | hc
        · exact hdig c hc
        · simp only [List.mem_singleton] at hc
          subst hc
          exact digitChar_range (by omega)
      · rw [valOf_append_one, hval, digitChar_toNat (show n % 10 ≤ 9 by omega)]
        omega

theorem digitsOf_spec {n : Nat} (h : n < 10 ^ 23) :
    digitsOf n ≠ [] ∧ (∀ c ∈ digitsOf n, 48 ≤ c.toNat ∧ c.toNat ≤ 57) ∧
      valOf (digitsOf n) = n :=
  digitsAux_spec 23 n h

theorem takeWhile_eq_self {α : Type} {p : α → Bool} :
    ∀ {l : List α}, (∀ a ∈ l, p a = true) → l.takeWhile p = l := by
  intro l
  induction l with
  | nil => intro _; rfl
  | cons c rest ih =>
    intro h
    rw [List.takeWhile_cons, h c (by simp)]
    simp only [if_true]
    rw [ih fun x hx => h x (by simp [hx])]

theorem decValU_map (cs : List Char) : decValU (cs.map Char.toNat) = valOf cs := by
  unfold decValU valOf
  rw [List.foldl_map]

theorem utf16_append (a b : List Char) : utf16 (a ++ b) = utf16 a ++ utf16 b := by
  induction a with
  | nil => rfl
  | cons c rest ih =>
    show utf16Char c ++ utf16 (rest ++ b) = (utf16Char c ++ utf16 rest) ++ utf16 b
    rw [ih, List.append_assoc]

theorem utf16_ascii {cs : List Char} (h : ∀ c ∈ cs, c.toNat < 65536) :
    utf16 cs = cs.map Char.toNat := by
  induction cs with
  | nil => rfl
  | cons c rest ih =>
    show utf16Char c ++ utf16 rest = c.toNat :: rest.map Char.toNat
    rw [ih fun x hx => h x (by simp [hx])]
    unfold utf16Char
    rw [if_pos (h c (by simp))]
    rfl

theorem jsParseInt_digits {us : List Nat} (hne : us ≠ [])
    (hd : ∀ u ∈ us, 48 ≤ u ∧ u ≤ 57) :
    jsParseInt us = some ((decValU us : Int)) := by
  cases us with
  | nil => exact absurd rfl hne
  | cons u rest =>
    have hu := hd u (by simp)
    have hwhite : isJsWhiteU u = false := by
      simp only [isJsWhiteU]
      simp only [Bool.or_eq_false_iff, beq_eq_false_iff_ne, ne_eq,
        Bool.and_eq_false_iff, decide_eq_false_iff_not, not_le]
      omega
    have hdrop : (u :: rest).dropWhile isJsWhiteU = u :: rest := by
      rw [List.dropWhile_cons, hwhite]
      simp
    have hhex : ¬ ((u :: rest).head? = some 48 ∧
        ((u :: rest).tail.head? = some 120 ∨ (u :: rest).tail.head? = some 88)) := by
      rintro ⟨h48, h2⟩
      cases rest with
      | nil => simp at h2
      | cons v vs =>
        have hv := hd v (by simp)
        simp only [List.tail_cons, List.head?_cons, Option.some_inj] at h2
        omega
    unfold jsParseInt
    rw [hdrop]
    unfold jsParseSign
    rw [if_neg (by simp only [List.head?_cons, Option.some_inj]; omega),
      if_neg (by simp only [List.head?_cons, Option.some_inj]; omega)]
    unfold jsParseIntCore
    rw [if_neg hhex]
    rw [takeWhile_eq_self (fun a ha => by
      have := hd a ha
      simp only [isDigitU, Bool.and_eq_true, decide_eq_true_eq]
      omega)]
    rw [if_neg (by simp)]
    rfl

theorem digitsOf_len_one {n : Nat} (h : n ≤ 9) : digitsOf n = [digitChar n] := by
  unfold digitsOf
  rw [digitsAux, if_pos (by omega)]

theorem digitsOf_len_two {n : Nat} (h1 : 10 ≤ n) (h2 : n ≤ 99) :
    digitsOf n = [digitChar (n / 10), digitChar (n % 10)] := by
  unfold digitsOf
  rw [digitsAux, if_neg (by omega), digitsAux, if_pos (by omega)]
  rfl

theorem digitsOf_len_three {n : Nat} (h1 : 100 ≤ n) (h2 : n ≤ 999) :
    (digitsOf n).length = 3 := by
  unfold digitsOf
  rw [digitsAux, if_neg (by omega), digitsAux, if_neg (by omega), digitsAux,
    if_pos (by omega)]
  simp

theorem digitsOf_len_four {n : Nat} (h1 : 1000 ≤ n) (h2 : n ≤ 9999) :
    (digitsOf n).length = 4 := by
  unfold digitsOf
  rw [digitsAux, if_neg (by omega), digitsAux, if_neg (by omega), digitsAux,
    if_neg (by omega), digitsAux, if_pos (by omega)]
  simp

theorem pad2_len {n : Nat} (h : n ≤ 99) : (pad2 n).length = 2 := by
  unfold pad2
  split_ifs with h10
  · rw [digitsOf_len_one (by omega)]
    rfl
  · rw [digitsOf_len_two (by omega) (by omega)]
    rfl

theorem pad2_range {n : Nat} (h : n ≤ 99) :
    ∀ c ∈ pad2 n, 48 ≤ c.toNat ∧ c.toNat ≤ 57 := by
  unfold pad2
  split_ifs with h10
  · intro c hc
    rw [digitsOf_len_one (by omega)] at hc
    simp only [List.mem_cons, List.mem_singleton, List.not_mem_nil, or_false] at hc
    rcases hc with rfl | rfl
    · exact ⟨by decide, by decide⟩
    · exact digitChar_range (by omega)
  · intro c hc
    exact (digitsOf_spec (by omega)).2.1 c hc

theorem pad2_val {n : Nat} (h : n ≤ 99) : valOf (pad2 n) = n := by
  unfold pad2
  split_ifs with h10
  · rw [digitsOf_len_one (by omega)]
    unfold valOf
    simp [digitChar_toNat (show n ≤ 9 by omega)]
  · exact (digitsOf_spec (by omega)).2.2

theorem pad2_ne_nil {n : Nat} (h : n ≤ 99) : pad2 n ≠ [] := by
  have := pad2_len h
  intro hc
  rw [hc] at this
  simp at this

/-! ## Format and parse round trip -/

theorem data_append (s t : String) : (s ++ t).data = s.data ++ t.data := rfl

theorem format_data_4digit {d : JDate} (h1 : 1000 ≤ d.year) :
    formatChars d = digitsOf d.year.toNat ++ (pad2 d.month ++ pad2 d.day) := by
  unfold formatChars intToChars
  rw [if_neg (by omega), List.append_assoc]

theorem slice_three_first {A B C : List Nat} (hA : A.length = 4) :
    slice (A ++ (B ++ C)) 0 4 = A := by
  unfold slice
  rw [List.drop_zero, ← hA, List.take_left]

theorem slice_three_mid {A B C : List Nat} (hA : A.length = 4) (hB : B.length = 2)
    (_hC : C.length = 2) :
    slice (A ++ (B ++ C)) 4 6 = B := by
  unfold slice
  rw [← List.append_assoc, List.take_left' (by rw [List.length_append]; omega),
    List.drop_left' hA]

theorem slice_three_last {A B C : List Nat} (hA : A.length = 4) (hB : B.length = 2)
    (hC : C.length = 2) :
    slice (A ++ (B ++ C)) 6 8 = C := by
  unfold slice
  rw [List.take_of_length_le (by simp only [List.length_append]; omega),
    ← List.append_assoc, List.drop_left' (by rw [List.length_append]; omega)]

theorem mkDate_of_valid {y : Int} {m dd : Nat} (hv : JDate.Valid ⟨y, m, dd⟩)
    (hy : ¬ (0 ≤ y ∧ y ≤ 99)) :
    mkDate y ((m : Int) - 1) ((dd : Int)) = ⟨y, m, dd⟩ := by
  rw [valid_mk] at hv
  obtain ⟨hm1, hm2, hd1, hd2⟩ := hv
  have hcast : ((m : Int) - 1) = ((m - 1 : Nat) : Int) := by omega
  rw [hcast, mkDate_eval y hy (m - 1) (by omega) ((dd : Int))]
  have hm' : m - 1 + 1 = m := by omega
  rw [hm']
  have hdd : ((dd : Int) - 1) = (((dd - 1 : Nat)) : Int) := by omega
  rw [hdd, addDaysZ_of_nonneg]
  rw [addDays_in_month (dd - 1) (by omega) (by omega)]
  have hd' : 1 + (dd - 1) = dd := by omega
  rw [hd']

theorem mem_of_digit_map {A : List Char} (hA : ∀ c ∈ A, 48 ≤ c.toNat ∧ c.toNat ≤ 57) :
    ∀ u ∈ A.map Char.toNat, 48 ≤ u ∧ u ≤ 57 := by
  intro u hu
  rw [List.mem_map] at hu
  obtain ⟨c, hc, rfl⟩ := hu
  exact hA c hc

theorem map_toNat_ne_nil {A : List Char} (hA : A ≠ []) : A.map Char.toNat ≠ [] := by
  intro hc
  exact hA (by simpa using hc)

theorem parse_format {d : JDate} (h : d.Valid) (h1 : 1000 ≤ d.year) (h2 : d.year ≤ 9999) :
    parse (utf16 (formatChars d)) = some d := by
  obtain ⟨y, m, dd⟩ := d
  dsimp only at h1 h2
  have hv := h
  obtain ⟨hm1, hm2, hd1, hd2⟩ := h
  dsimp only at hm1 hm2 hd1 hd2
  have hdle := daysInMonth_le y m
  have hAspec := digitsOf_spec (n := y.toNat) (by omega)
  have hAlen : ((digitsOf y.toNat).map Char.toNat).length = 4 := by
    rw [List.length_map]
    exact digitsOf_len_four (by omega) (by omega)
  have hBlen : ((pad2 m).map Char.toNat).length = 2 := by
    rw [List.length_map]
    exact pad2_len (by omega)
  have hClen : ((pad2 dd).map Char.toNat).length = 2 := by
    rw [List.length_map]
    exact pad2_len (by omega)
  rw [format_data_4digit (by dsimp only; omega)]
  dsimp only
  rw [utf16_ascii (by
    intro c hc
    rw [List.mem_append, List.mem_append] at hc
    rcases hc with hc | hc | hc
    · have := hAspec.2.1 c hc
      omega
    · have := pad2_range (n := m) (by omega) c hc
      omega
    · have := pad2_range (n := dd) (by omega) c hc
      omega)]
  rw [List.map_append, List.map_append]
  unfold parse
  rw [slice_three_first hAlen, slice_three_mid hAlen hBlen hClen,
    slice_three_last hAlen hBlen hClen]
  rw [jsParseInt_digits (map_toNat_ne_nil hAspec.1) (mem_of_digit_map hAspec.2.1),
    jsParseInt_digits (map_toNat_ne_nil (pad2_ne_nil (by omega)))
      (mem_of_digit_map (pad2_range (by omega))),
    jsParseInt_digits (map_toNat_ne_nil (pad2_ne_nil (by omega)))
      (mem_of_digit_map (pad2_range (by omega)))]
  show some (mkDate _ _ _) = _
  rw [decValU_map, decValU_map, decValU_map]
  rw [hAspec.2.2, pad2_val (by omega), pad2_val (by omega)]
  rw [Int.toNat_of_nonneg (by omega)]
  rw [mkDate_of_valid hv (by omega)]

theorem sliceName_keyOf (d : JDate) : sliceName (keyOf d) = utf16 (formatChars d) := by
  unfold sliceName keyOf
  rw [data_append, data_append]
  have hfmt : (format d).data = formatChars d := rfl
  rw [hfmt, utf16_append, utf16_append]
  have hZlen : (utf16 ".zip".data).length = 4 := by decide
  have hElen : (utf16 "export".data).length = 6 := by decide
  have hlen4 : ((utf16 "export".data ++ utf16 (formatChars d)) ++ utf16 ".zip".data).length
        - 4
      = (utf16 "export".data ++ utf16 (formatChars d)).length := by
    rw [List.length_append, hZlen]
    omega
  rw [hlen4, List.take_left]
  rw [List.drop_left' hElen]

theorem isBackupName_keyOf (d : JDate) : isBackupName (keyOf d) = true := by
  unfold isBackupName keyOf
  rw [data_append, data_append]
  have hfmt : (format d).data = formatChars d := rfl
  rw [hfmt, utf16_append, utf16_append]
  apply Bool.and_eq_true_iff.mpr
  constructor
  · rw [List.isPrefixOf_iff_prefix,
      show ("export".data.map Char.toNat) = utf16 "export".data from by decide,
      List.append_assoc]
    exact List.prefix_append _ _
  · rw [List.isSuffixOf_iff_suffix,
      show (".zip".data.map Char.toNat) = utf16 ".zip".data from by decide]
    exact List.suffix_append _ _

theorem parse_keyOf {d : JDate} (h : d.Valid) (h1 : 1000 ≤ d.year) (h2 : d.year ≤ 9999) :
    parse (sliceName (keyOf d)) = some d := by
  rw [sliceName_keyOf]
  exact parse_format h h1 h2

/-- Sanity checks that the `parseInt` model follows ECMAScript on its edge
cases: leading whitespace is trimmed, a sign is honoured, a `0x`/`0X`
prefix switches to hexadecimal, and a run with no digit is `NaN`. -/
theorem jsParseInt_edge_cases :
    jsParseInt (utf16 " 100".data) = some 100
      ∧ jsParseInt (utf16 "0x64".data) = some 100
      ∧ jsParseInt (utf16 "-12ab".data) = some (-12)
      ∧ jsParseInt (utf16 "  +0X1f".data) = some 31
      ∧ jsParseInt (utf16 "0x".data) = none
      ∧ jsParseInt (utf16 "abc".data) = none := by decide

/-- A name whose date windows only parse through whitespace trimming is
still treated as a managed snapshot: `export 1000001.zip` slices to
` 100`, `00`, `01`, and `new Date(100, -1, 1)` rolls over to 0099-12-01. -/
theorem parse_whitespace_example :
    parse (sliceName "export 1000001.zip") = some ⟨99, 12, 1⟩
      ∧ isBackupName "export 1000001.zip" = true := by decide

theorem keyOf_data_len (d : JDate) :
    (keyOf d).data.length = 10 + (intToChars d.year).length + (pad2 d.month).length
      + (pad2 d.day).length := by
  unfold keyOf
  rw [data_append, data_append]
  have hfmt : (format d).data = formatChars d := rfl
  rw [hfmt]
  unfold formatChars
  simp [List.length_append]
  omega

theorem keyOf_inj_4digit {a b : JDate} (ha : a.Valid) (hb : b.Valid)
    (ha1 : 1000 ≤ a.year) (ha2 : a.year ≤ 9999)
    (hb1 : 1000 ≤ b.year) (hb2 : b.year ≤ 9999)
    (h : keyOf a = keyOf b) : a = b := by
  have hp : parse (sliceName (keyOf a)) = parse (sliceName (keyOf b)) := by rw [h]
  rw [parse_keyOf ha ha1 ha2, parse_keyOf hb hb1 hb2] at hp
  exact Option.some_inj.mp hp

theorem keyOf_len_year3 {d : JDate} (hv : d.Valid) (h1 : 100 ≤ d.year) (h2 : d.year ≤ 999) :
    (keyOf d).data.length = 17 := by
  rw [keyOf_data_len]
  have hm := hv.2.1
  have hd := hv.2.2.2
  have hd31 := daysInMonth_le d.year d.month
  have hy : intToChars d.year = digitsOf d.year.toNat := by
    unfold intToChars
    rw [if_neg (by omega)]
  rw [hy, digitsOf_len_three (by omega) (by omega), pad2_len (by omega), pad2_len (by omega)]

theorem keyOf_len_year4 {d : JDate} (hv : d.Valid) (h1 : 1000 ≤ d.year) (h2 : d.year ≤ 9999) :
    (keyOf d).data.length = 18 := by
  rw [keyOf_data_len]
  have hm := hv.2.1
  have hd := hv.2.2.2
  have hd31 := daysInMonth_le d.year d.month
  have hy : intToChars d.year = digitsOf d.year.toNat := by
    unfold intToChars
    rw [if_neg (by omega)]
  rw [hy, digitsOf_len_four (by omega) (by omega), pad2_len (by omega), pad2_len (by omega)]

/-! ## Weekly loop lemmas -/

theorem subDays_add (d : JDate) (a b : Nat) :
    subDays d (a + b) = subDays (subDays d a) b := by
  induction a generalizing d with
  | zero => rw [Nat.zero_add]; rfl
  | succ k ih =>
    have h1 : k + 1 + b = (k + b) + 1 := by omega
    rw [h1]
    show subDays (prevDay d) (k + b) = subDays (subDays (prevDay d) k) b
    exact ih (prevDay d)

theorem weeklyLoop_zero (now s : JDate) : weeklyLoop now 0 s = [] := rfl

theorem weeklyLoop_succ (now s : JDate) (f : Nat) :
    weeklyLoop now (f + 1) s =
      if weeklyCond now s then s :: weeklyLoop now f (endOfWeek (subDays s 7)) else [] := by
  simp only [weeklyLoop]

theorem weeklyCands_succ (s : JDate) (f : Nat) :
    weeklyCands (f + 1) s = s :: weeklyCands f (endOfWeek (subDays s 7)) := by
  simp only [weeklyCands]

theorem weeklyLoop_eq_takeWhile (now : JDate) :
    ∀ (fuel : Nat) (s : JDate),
      weeklyLoop now fuel s = (weeklyCands fuel s).takeWhile (weeklyCond now) := by
  intro fuel
  induction fuel with
  | zero => intro s; rfl
  | succ k ih =>
    intro s
    rw [weeklyLoop_succ, weeklyCands_succ, List.takeWhile_cons]
    split_ifs with hc
    · rw [ih]
    · rfl

theorem weeklyCands_length (fuel : Nat) :
    ∀ s : JDate, (weeklyCands fuel s).length = fuel := by
  induction fuel with
  | zero => intro s; rfl
  | succ k ih =>
    intro s
    rw [weeklyCands_succ, List.length_cons, ih]

theorem weeklyLoop_mem_sound (now : JDate) :
    ∀ (fuel : Nat) (s : JDate), s.Valid → getDay s = 0 →
      ∀ d ∈ weeklyLoop now fuel s,
        weeklyCond now d = true ∧ ∃ k : Nat, d = subDays s (7 * k) := by
  intro fuel
  induction fuel with
  | zero => intro s _ _ d hd; simp [weeklyLoop] at hd
  | succ f ih =>
    intro s hsv hs0 d hd
    rw [weeklyLoop_succ] at hd
    split_ifs at hd with hc
    · rcases List.mem_cons.mp hd with rfl | htl
      · exact ⟨hc, 0, rfl⟩
      · rw [weeklyStep_of_sunday hsv hs0] at htl
        have hv7 : (subDays s 7).Valid := valid_subDays hsv 7
        have h07 : getDay (subDays s 7) = 0 := by
          have := getDay_subDays_mul7 hsv 1
          rw [Nat.mul_one] at this
          rw [this, hs0]
        obtain ⟨hcond, k, hk⟩ := ih (subDays s 7) hv7 h07 d htl
        refine ⟨hcond, k + 1, ?_⟩
        rw [hk, ← subDays_add]
        have h7 : 7 + 7 * k = 7 * (k + 1) := by omega
        rw [h7]
    · exact absurd hd (List.not_mem_nil d)

theorem weeklyLoop_mem_complete (now : JDate) :
    ∀ (k fuel : Nat) (s : JDate), k < fuel →
      (∀ i : Nat, i ≤ k → weeklyCond now (subDays s (7 * i)) = true) →
      s.Valid → getDay s = 0 →
      subDays s (7 * k) ∈ weeklyLoop now fuel s := by
  intro k
  induction k with
  | zero =>
    intro fuel s hf hall _ _
    obtain ⟨f, rfl⟩ : ∃ f, fuel = f + 1 := ⟨fuel - 1, by omega⟩
    rw [weeklyLoop_succ]
    have h0 := hall 0 (le_refl 0)
    rw [show subDays s (7 * 0) = s from rfl] at h0 ⊢
    rw [if_pos h0]
    exact List.mem_cons_self _ _
  | succ j ih =>
    intro fuel s hf hall hsv hs0
    obtain ⟨f, rfl⟩ : ∃ f, fuel = f + 1 := ⟨fuel - 1, by omega⟩
    rw [weeklyLoop_succ]
    have h0 := hall 0 (by omega)
    rw [show subDays s (7 * 0) = s from rfl] at h0
    rw [if_pos h0]
    apply List.mem_cons_of_mem
    rw [weeklyStep_of_sunday hsv hs0]
    have hv7 : (subDays s 7).Valid := valid_subDays hsv 7
    have h07 : getDay (subDays s 7) = 0 := by
      have := getDay_subDays_mul7 hsv 1
      rw [Nat.mul_one] at this
      rw [this, hs0]
    have hstep : ∀ i : Nat, i ≤ j → weeklyCond now (subDays (subDays s 7) (7 * i)) = true := by
      intro i hi
      rw [← subDays_add]
      have := hall (i + 1) (by omega)
      rw [show 7 + 7 * i = 7 * (i + 1) by omega]
      exact this
    have := ih f (subDays s 7) (by omega) hstep hv7 h07
    rw [← subDays_add, show 7 + 7 * j = 7 * (j + 1) by omega] at this
    exact this

theorem weeklyStart_props {now : JDate} (hv : now.Valid) :
    (endOfWeek (subDays now 7)).Valid ∧ getDay (endOfWeek (subDays now 7)) = 0 ∧
      dayNumber (endOfWeek (subDays now 7)) ≤ dayNumber now - 1 := by
  have hv7 : (subDays now 7).Valid := valid_subDays hv 7
  refine ⟨valid_endOfWeek hv7, getDay_endOfWeek hv7, ?_⟩
  have hb := (endOfWeek_bounds hv7).2
  rw [dayNumber_subDays hv 7] at hb
  omega

theorem monthStart_num {now : JDate} (hv : now.Valid) :
    dayNumber ⟨now.year, now.month, 1⟩ = dayNumber now - ((now.day : Int) - 1) := by
  obtain ⟨y, m, dd⟩ := now
  dsimp only
  rw [dayNumber_mk, dayNumber_mk]
  omega

theorem weeklyCond_iff (now d : JDate) :
    weeklyCond now d = true ↔
      (d.year = now.year ∧ d.month - 1 = now.month - 1 ∧
        dayNumber (startOfMonth now) ≤ dayNumber d) := by
  unfold weeklyCond isSameMonth getMonth
  simp [Bool.and_eq_true, beq_iff_eq, decide_eq_true_eq, and_assoc]

theorem weeklyDates_mem_iff {now : JDate} (hv : now.Valid)
    (hy : ¬ (0 ≤ now.year ∧ now.year ≤ 99)) (d : JDate) :
    d ∈ weeklyDates now ↔
      (weeklyCond now d = true ∧
        ∃ k : Nat, d = subDays (endOfWeek (subDays now 7)) (7 * k)) := by
  obtain ⟨hS0v, hS00, hS0le⟩ := weeklyStart_props hv
  constructor
  · intro hd
    exact weeklyLoop_mem_sound now 10 _ hS0v hS00 d hd
  · rintro ⟨hcond, k, rfl⟩
    set S0 := endOfWeek (subDays now 7) with hS0
    have hSnum : ∀ i : Nat, dayNumber (subDays S0 (7 * i)) = dayNumber S0 - 7 * i := by
      intro i
      rw [dayNumber_subDays hS0v]
      push_cast
      ring
    have hsm : startOfMonth now = ⟨now.year, now.month, 1⟩ := startOfMonth_eval hv hy
    have hms := monthStart_num hv
    have hcond' := (weeklyCond_iff now _).mp hcond
    rw [hsm, hms] at hcond'
    obtain ⟨hcy, hcm, hcge⟩ := hcond'
    rw [hSnum k] at hcge
    have hdle := hv.2.2.2
    have hd31 := daysInMonth_le now.year now.month
    have hk10 : k < 10 := by omega
    apply weeklyLoop_mem_complete now k 10 S0 hk10 ?_ hS0v hS00
    intro i hi
    rw [weeklyCond_iff, hsm, hms]
    have hvi : (subDays S0 (7 * i)).Valid := valid_subDays hS0v _
    have hbetween := sameMonth_of_between hvi hv
      (by rw [hms] at *; rw [hSnum i]; omega)
      (by rw [hSnum i]; omega)
    refine ⟨hbetween.1, by rw [hbetween.2], ?_⟩
    rw [hSnum i]
    omega

theorem weeklyDates_facts {now : JDate} (hv : now.Valid) {d : JDate}
    (hd : d ∈ weeklyDates now) :
    d.Valid ∧ dayNumber d ≤ dayNumber now - 1 ∧ d.year = now.year ∧
      d.month - 1 = now.month - 1 := by
  obtain ⟨hS0v, hS00, hS0le⟩ := weeklyStart_props hv
  obtain ⟨hcond, k, rfl⟩ := weeklyLoop_mem_sound now 10 _ hS0v hS00 d hd
  have hcond' := (weeklyCond_iff now _).mp hcond
  refine ⟨valid_subDays hS0v _, ?_, hcond'.1, hcond'.2.1⟩
  rw [dayNumber_subDays hS0v]
  omega

/-! ## Monthly tier lemmas -/

theorem monthly_item_eval {y : Int} (hy : ¬ (0 ≤ y ∧ y ≤ 99)) {mm : Nat} (hmm : mm ≤ 10) :
    endOfMonth (mkDate y ((mm : Int)) 1) = ⟨y, mm + 1, daysInMonth y (mm + 1)⟩ := by
  rw [mkDate_month1 y hy mm (by omega)]
  have hv : JDate.Valid ⟨y, mm + 1, 1⟩ := by
    rw [valid_mk]
    exact ⟨by omega, by omega, le_refl 1, daysInMonth_pos y (mm + 1) (by omega) (by omega)⟩
  exact endOfMonth_eval hv hy (by dsimp only; omega)

theorem monthlyKeys_iff {now : JDate} (hv : now.Valid)
    (hy : ¬ (0 ≤ now.year ∧ now.year ≤ 99)) (k : String) :
    k ∈ monthlyKeys now ↔
      ∃ m : Nat, 1 ≤ m ∧ m < now.month ∧
        k = keyOf ⟨now.year, m, daysInMonth now.year m⟩ := by
  have hm1 := hv.1
  have hm2 := hv.2.1
  have hgm : getMonth now = now.month - 1 := rfl
  unfold monthlyKeys
  rw [List.mem_map]
  constructor
  · rintro ⟨i, hi, rfl⟩
    rw [List.mem_range] at hi
    have hcast : ((getMonth now : Int) - ((i : Int) + 1))
        = (((getMonth now - (i + 1) : Nat)) : Int) := by omega
    rw [hcast, monthly_item_eval hy (by omega)]
    exact ⟨getMonth now - (i + 1) + 1, by omega, by omega, rfl⟩
  · rintro ⟨m, hmge, hmlt, rfl⟩
    refine ⟨getMonth now - m, by rw [List.mem_range]; omega, ?_⟩
    have hcast : ((getMonth now : Int) - (((getMonth now - m : Nat) : Int) + 1))
        = (((m - 1 : Nat)) : Int) := by omega
    rw [hcast, monthly_item_eval hy (by omega)]
    have hmm : m - 1 + 1 = m := by omega
    rw [hmm]

/-! ## Yearly tier lemmas -/

theorem foldl_min_ge {c : Int} :
    ∀ (l : List Int) (a : Int), c ≤ a → (∀ x ∈ l, c ≤ x) → c ≤ l.foldl min a := by
  intro l
  induction l with
  | nil => intro a ha _; exact ha
  | cons x rest ih =>
    intro a ha hall
    show c ≤ rest.foldl min (min a x)
    exact ih (min a x) (le_min ha (hall x (by simp))) fun z hz => hall z (by simp [hz])

theorem minYearOf_ge {bs : List (String × JDate)} {c : Int} (hne : bs ≠ [])
    (h : ∀ b ∈ bs, c ≤ b.2.year) : c ≤ minYearOf bs := by
  cases bs with
  | nil => exact absurd rfl hne
  | cons b rest =>
    unfold minYearOf
    apply foldl_min_ge _ _ (h b (by simp))
    intro x hx
    rw [List.mem_map] at hx
    obtain ⟨p, hp, rfl⟩ := hx
    exact h p (by simp [hp])

theorem intRange_mem {a b z : Int} : z ∈ intRange a b ↔ a ≤ z ∧ z < b := by
  unfold intRange
  rw [List.mem_map]
  constructor
  · rintro ⟨i, hi, rfl⟩
    rw [List.mem_range] at hi
    omega
  · rintro ⟨h1, h2⟩
    refine ⟨(z - a).toNat, ?_, by omega⟩
    rw [List.mem_range]
    omega

theorem yearly_item_eval {z : Int} (hz : 100 ≤ z) :
    keyOf (endOfYear (mkDate z 0 1)) = keyOf ⟨z, 12, 31⟩ := by
  have h0 : (0 : Int) = ((0 : Nat) : Int) := rfl
  rw [h0, mkDate_month1 z (by omega) 0 (by omega)]
  rw [endOfYear_eval z (by omega) _ rfl]

theorem yearlyKeys_eval {bs : List (String × JDate)} (now : JDate) (hne : bs ≠ [])
    (hys : ∀ b ∈ bs, 100 ≤ b.2.year) :
    yearlyKeys bs now
      = (intRange (minYearOf bs) now.year).map fun z => keyOf ⟨z, 12, 31⟩ := by
  unfold yearlyKeys
  rw [if_neg (by simpa [List.isEmpty_iff] using hne)]
  apply List.map_congr_left
  intro z hz
  rw [intRange_mem] at hz
  exact yearly_item_eval (le_trans (minYearOf_ge hne hys) hz.1)

/-! ## Backup list and delete set membership -/

theorem mem_backupsOf {files : List String} {f : String} {d : JDate}
    (hf : f ∈ files) (hb : isBackupName f = true) (hp : parse (sliceName f) = some d) :
    (f, d) ∈ backupsOf files := by
  unfold backupsOf backupFiles
  rw [List.mem_filterMap]
  refine ⟨f, ?_, ?_⟩
  · rw [List.mem_filter]
    exact ⟨hf, hb⟩
  · rw [hp]
    rfl

theorem mem_backupsOf_elim {files : List String} {b : String × JDate}
    (h : b ∈ backupsOf files) :
    b.1 ∈ files ∧ isBackupName b.1 = true ∧ parse (sliceName b.1) = some b.2 := by
  unfold backupsOf backupFiles at h
  rw [List.mem_filterMap] at h
  obtain ⟨f, hf, hmap⟩ := h
  rw [List.mem_filter] at hf
  cases hparse : parse (sliceName f) with
  | none => rw [hparse] at hmap; simp at hmap
  | some d =>
    rw [hparse] at hmap
    obtain rfl : (f, d) = b := by simpa using hmap
    exact ⟨hf.1, hf.2, hparse⟩

theorem mem_deleteSet {now : JDate} {files : List String} {f : String} {d : JDate}
    (hmem : (f, d) ∈ backupsOf files) (hnk : f ∉ toKeep now files) :
    f ∈ deleteSet now files := by
  unfold deleteSet
  rw [List.mem_map]
  refine ⟨(f, d), ?_, rfl⟩
  rw [List.mem_filter]
  refine ⟨hmem, ?_⟩
  simpa [List.elem_iff] using hnk

theorem mem_deleteSet_elim {now : JDate} {files : List String} {f : String}
    (h : f ∈ deleteSet now files) :
    ∃ d, (f, d) ∈ backupsOf files ∧ f ∉ toKeep now files := by
  unfold deleteSet at h
  rw [List.mem_map] at h
  obtain ⟨b, hb, rfl⟩ := h
  rw [List.mem_filter] at hb
  refine ⟨b.2, hb.1, ?_⟩
  simpa [List.elem_iff] using hb.2

/-! ## Keep-set classification -/

theorem year_le_of_daynum {now dk : JDate} (hn : now.Valid) (hk : dk.Valid)
    (h : dayNumber dk ≤ dayNumber now) : dk.year ≤ now.year := by
  by_contra hc
  push_neg at hc
  have hlt : lexLt now dk := Or.inl hc
  have := dayNumber_lt_of_lexLt hn hk hlt
  omega

theorem year_lb_of_daynum {now dk : JDate} (hn : now.Valid) (hk : dk.Valid)
    (h : dayNumber now - 365 ≤ dayNumber dk) : now.year - 1 ≤ dk.year := by
  by_contra hc
  push_neg at hc
  have h1 : dayNumber dk ≤ dayNumber ⟨dk.year, 12, 31⟩ :=
    dayNumber_le_yearEnd hk
  have h2 := yearEnd_succ dk.year
  have h3 := yearStart_mono (dk.year + 1) (now.year - 1) (by omega)
  have h4 : dayNumber ⟨now.year - 1, 1, 1⟩ ≤ dayNumber ⟨now.year, 1, 1⟩ - 365 := by
    rw [dayNumber_mk, dayNumber_mk]
    have e1 : daysBeforeMonth (now.year - 1) 1 = 0 := rfl
    have e2 : daysBeforeMonth now.year 1 = 0 := rfl
    omega
  have h5 : dayNumber ⟨now.year, 1, 1⟩ ≤ dayNumber now :=
    yearStart_le_dayNumber hn
  omega

theorem toKeep_classified {now : JDate} {files : List String} (hv : now.Valid)
    (h1 : 1000 ≤ now.year) (h2 : now.year ≤ 9999)
    (hbs : ∀ b ∈ backupsOf files, 1000 ≤ b.2.year) :
    ∀ k ∈ toKeep now files, ∃ dk : JDate, dk.Valid ∧ dayNumber dk ≤ dayNumber now ∧
      k = keyOf dk ∧ 100 ≤ dk.year ∧ dk.year ≤ 9999 := by
  intro k hk
  unfold toKeep at hk
  rw [List.mem_append, List.mem_append, List.mem_append] at hk
  rcases hk with ((hk | hk) | hk) | hk
  · unfold dailyKeys at hk
    rw [List.mem_map] at hk
    obtain ⟨i, hi, rfl⟩ := hk
    rw [List.mem_range] at hi
    have hkv : (subDays now i).Valid := valid_subDays hv i
    have hnum : dayNumber (subDays now i) = dayNumber now - i := dayNumber_subDays hv i
    have hylb : now.year - 1 ≤ (subDays now i).year :=
      year_lb_of_daynum hv hkv (by omega)
    have hyub : (subDays now i).year ≤ now.year :=
      year_le_of_daynum hv hkv (by omega)
    exact ⟨subDays now i, hkv, by omega, rfl, by omega, by omega⟩
  · unfold weeklyKeys at hk
    rw [List.mem_map] at hk
    obtain ⟨d, hd, rfl⟩ := hk
    obtain ⟨hdv, hdle, hdy, _⟩ := weeklyDates_facts hv hd
    exact ⟨d, hdv, by omega, rfl, by omega, by omega⟩
  · rw [monthlyKeys_iff hv (by omega) k] at hk
    obtain ⟨m, hm1, hm2, rfl⟩ := hk
    have hmv : JDate.Valid ⟨now.year, m, daysInMonth now.year m⟩ := by
      rw [valid_mk]
      have := daysInMonth_pos now.year m hm1 (by have := hv.2.1; omega)
      exact ⟨hm1, by have := hv.2.1; omega, this, le_refl _⟩
    have hlt : lexLt ⟨now.year, m, daysInMonth now.year m⟩ now := by
      unfold lexLt
      dsimp only
      omega
    have := dayNumber_lt_of_lexLt hmv hv hlt
    exact ⟨_, hmv, by omega, rfl, by dsimp only; omega, by dsimp only; omega⟩
  · by_cases hbe : backupsOf files = []
    · rw [hbe] at hk
      simp [yearlyKeys] at hk
    · rw [yearlyKeys_eval now hbe (fun b hb => by have := hbs b hb; omega)] at hk
      rw [List.mem_map] at hk
      obtain ⟨z, hz, rfl⟩ := hk
      rw [intRange_mem] at hz
      have hmin : (1000 : Int) ≤ minYearOf (backupsOf files) := minYearOf_ge hbe hbs
      have hzv : JDate.Valid ⟨z, 12, 31⟩ := by
        rw [valid_mk]
        have h31 : daysInMonth z 12 = 31 := rfl
        omega
      have hlt : lexLt ⟨z, 12, 31⟩ now := by
        unfold lexLt
        dsimp only
        omega
      have := dayNumber_lt_of_lexLt hzv hv hlt
      exact ⟨_, hzv, by omega, rfl, by dsimp only; omega, by dsimp only; omega⟩

theorem future_deleted {now : JDate} {files : List String} {d' : JDate} (hv : now.Valid)
    (h1 : 1000 ≤ now.year) (h2 : now.year ≤ 9999)
    (hbs : ∀ b ∈ backupsOf files, 1000 ≤ b.2.year)
    (hd'v : d'.Valid) (hd'1 : 1000 ≤ d'.year) (hd'2 : d'.year ≤ 9999)
    (hfut : dayNumber now < dayNumber d') (hmem : keyOf d' ∈ files) :
    keyOf d' ∈ deleteSet now files := by
  apply mem_deleteSet (d := d')
  · exact mem_backupsOf hmem (isBackupName_keyOf d') (parse_keyOf hd'v hd'1 hd'2)
  · intro hk
    obtain ⟨dk, hdkv, hdknum, hkey, hy100, hy9999⟩ := toKeep_classified hv h1 h2 hbs _ hk
    by_cases hdk4 : 1000 ≤ dk.year
    · have heq := keyOf_inj_4digit hd'v hdkv hd'1 hd'2 hdk4 hy9999 hkey
      rw [heq] at hfut
      omega
    · have hlen1 := keyOf_len_year4 hd'v hd'1 hd'2
      have hlen2 := keyOf_len_year3 hdkv hy100 (by omega)
      rw [hkey] at hlen1
      omega

/-! ## Claim theorems -/

/-- C5: for every current date `now`, the keep-set of a rotation pass
contains the key of `now` and of each of the 6 immediately preceding
calendar days (the keys of the 7 consecutive days ending at `now`),
whatever the directory contents and across week, month, and year
boundaries. -/
theorem ark_C5_daily_coverage (now : JDate) (files : List String) (i : Nat) (hi : i < 7) :
    keyOf (subDays now i) ∈ toKeep now files := by
  unfold toKeep
  rw [List.mem_append, List.mem_append, List.mem_append]
  refine Or.inl (Or.inl (Or.inl ?_))
  unfold dailyKeys
  rw [List.mem_map]
  exact ⟨i, List.mem_range.mpr hi, rfl⟩

/-- Witness for C5 at `now` = 2024-03-15 crossing no boundary, `i` = 3. -/
theorem ark_C5_daily_coverage_witness :
    keyOf (subDays ⟨2024, 3, 15⟩ 3) ∈ toKeep ⟨2024, 3, 15⟩ [] :=
  ark_C5_daily_coverage ⟨2024, 3, 15⟩ [] 3 (by decide)

/-- C8: for every valid calendar date `d` whose year is in the 8-digit
`YYYYMMDD` range (1000..9999, exactly when `format d` is 8 characters),
parsing the UTF-16 code units of the formatted key yields `d` again:
`parse(format(d)) = d`. -/
theorem ark_C8_roundtrip (d : JDate) (h : d.Valid) (h1 : 1000 ≤ d.year)
    (h2 : d.year ≤ 9999) :
    parse (utf16 (format d).data) = some d :=
  parse_format h h1 h2

/-- Witness for C8 at the leap-day date 2024-02-29. -/
theorem ark_C8_roundtrip_witness :
    parse (utf16 (format ⟨2024, 2, 29⟩).data) = some ⟨2024, 2, 29⟩ :=
  ark_C8_roundtrip ⟨2024, 2, 29⟩ (by decide) (by decide) (by decide)

/-- C9: for every `now`, the weekly-tier loop terminates having produced a
bounded list: it equals the take-while of the stop condition over the first
10 candidates (so it stops at the first candidate that leaves now's month
or precedes the first of the month, or at the 10-iteration cap, whichever
comes first), and its length never exceeds 10. -/
theorem ark_C9_weekly_termination (now : JDate) :
    weeklyDates now
        = (weeklyCands 10 (endOfWeek (subDays now 7))).takeWhile (weeklyCond now)
      ∧ (weeklyDates now).length ≤ 10 := by
  constructor
  · exact weeklyLoop_eq_takeWhile now 10 _
  · rw [show weeklyDates now = _ from weeklyLoop_eq_takeWhile now 10 _]
    calc ((weeklyCands 10 (endOfWeek (subDays now 7))).takeWhile (weeklyCond now)).length
        ≤ (weeklyCands 10 (endOfWeek (subDays now 7))).length :=
          (List.takeWhile_prefix _).length_le
      _ = 10 := weeklyCands_length 10 _

/-- C2: for every `now` outside the constructor's 1900-offset clock range
(year 0..99), a date is produced by the weekly tier exactly when it is a
Sunday reached from the Sunday on-or-after `now - 7` by stepping backward
in 7-day strides, lies in the same calendar year and month as `now`, and
is not before the first day of that month; no other dates are contributed. -/
theorem ark_C2_weekly_tier (now : JDate) (hv : now.Valid)
    (hy : ¬ (0 ≤ now.year ∧ now.year ≤ 99)) (d : JDate) :
    d ∈ weeklyDates now ↔
      (getDay d = 0 ∧ isSameMonth d now = true ∧
        dayNumber (startOfMonth now) ≤ dayNumber d ∧
        ∃ k : Nat, d = subDays (endOfWeek (subDays now 7)) (7 * k)) := by
  obtain ⟨hS0v, hS00, _⟩ := weeklyStart_props hv
  rw [weeklyDates_mem_iff hv hy d]
  unfold weeklyCond
  simp only [Bool.and_eq_true, decide_eq_true_eq]
  constructor
  · rintro ⟨⟨hsm, hge⟩, k, rfl⟩
    refine ⟨?_, hsm, hge, k, rfl⟩
    rw [getDay_subDays_mul7 hS0v k, hS00]
  · rintro ⟨_, hsm, hge, k, rfl⟩
    exact ⟨⟨hsm, hge⟩, k, rfl⟩

/-- Witness for C2 at `now` = 2024-03-15 (a Friday): 2024-03-03 is a Sunday
of March 2024 reached after one 7-day stride from 2024-03-10 and is indeed
kept by the weekly tier. -/
theorem ark_C2_weekly_tier_witness :
    (⟨2024, 3, 3⟩ : JDate) ∈ weeklyDates ⟨2024, 3, 15⟩ :=
  (ark_C2_weekly_tier ⟨2024, 3, 15⟩ (by decide) (by decide) ⟨2024, 3, 3⟩).mpr
    ⟨by decide, by decide, by decide, 1, by decide⟩

/-- C4: for every `now` outside the constructor's 1900-offset clock range,
the monthly tier contributes exactly the key of the last calendar day of
each month from 1 up to but excluding now's month, within now's year, and
contributes nothing when `now` is in January. -/
theorem ark_C4_monthly_tier (now : JDate) (hv : now.Valid)
    (hy : ¬ (0 ≤ now.year ∧ now.year ≤ 99)) :
    (∀ k : String, k ∈ monthlyKeys now ↔
        ∃ m : Nat, 1 ≤ m ∧ m < now.month ∧
          k = keyOf ⟨now.year, m, daysInMonth now.year m⟩)
      ∧ (now.month = 1 → monthlyKeys now = []) := by
  constructor
  · intro k
    exact monthlyKeys_iff hv hy k
  · intro h1
    unfold monthlyKeys
    have h0 : getMonth now = 0 := by
      unfold getMonth
      omega
    rw [h0]
    rfl

/-- Witness for C4 at `now` = 2024-03-15: the leap-year end of February,
2024-02-29, is kept by the monthly tier. -/
theorem ark_C4_monthly_tier_witness :
    keyOf ⟨2024, 2, 29⟩ ∈ monthlyKeys ⟨2024, 3, 15⟩ :=
  ((ark_C4_monthly_tier ⟨2024, 3, 15⟩ (by decide) (by decide)).1 _).mpr
    ⟨2, by decide, by decide, by decide⟩

/-- C3 counterexample: the file `export01000001.zip` parses (via the Date
constructor's rollover, month index -1 of year 100) to 0099-12-01, so
`minYear` = 99 < 2024; the claim then demands December 31 of year 99 in
the yearly tier, but the tier never contains its key `export991231.zip`:
the constructor's 1900 offset makes the iteration for y = 99 produce
December 31 of 1999 instead. -/
theorem ark_C3_yearly_counterexample :
    minYearOf (backupsOf ["export01000001.zip", "export20240310.zip"]) = 99
      ∧ (99 : Int) < 2024
      ∧ keyOf ⟨99, 12, 31⟩
          ∉ yearlyKeys (backupsOf ["export01000001.zip", "export20240310.zip"])
              ⟨2024, 3, 15⟩ := by
  refine ⟨by decide, by decide, ?_⟩
  intro h
  have h99 : minYearOf (backupsOf ["export01000001.zip", "export20240310.zip"]) = 99 :=
    by decide
  unfold yearlyKeys at h
  rw [if_neg (by decide), h99] at h
  rw [List.mem_map] at h
  obtain ⟨z, hz, hkey⟩ := h
  rw [intRange_mem] at hz
  dsimp only at hz
  rcases Int.lt_or_le z 100 with hz100 | hz100
  · have hz99 : z = 99 := by omega
    subst hz99
    exact absurd hkey (by decide)
  · rw [yearly_item_eval hz100] at hkey
    have hzv : JDate.Valid ⟨z, 12, 31⟩ := by
      rw [valid_mk]
      have h31 : daysInMonth z 12 = 31 := rfl
      omega
    have hlen := congrArg (fun s => s.data.length) hkey
    dsimp only at hlen
    have hrhs : (keyOf ⟨(99 : Int), 12, 31⟩).data.length = 16 := by decide
    rcases Int.lt_or_le z 1000 with hz1000 | hz1000
    · rw [keyOf_len_year3 hzv (by dsimp only; omega) (by dsimp only; omega), hrhs] at hlen
      omega
    · rw [keyOf_len_year4 hzv (by dsimp only; omega) (by dsimp only; omega), hrhs] at hlen
      omega

/-- C3 amended: with no parsed snapshots the yearly tier is empty; with at
least one, provided every parsed snapshot year is at least 100 (outside
the Date constructor's 1900-offset range, where the code substitutes
December 31 of 1900+y), the yearly tier contributes exactly the keys of
December 31 of each year from `minYear` up to but excluding now's year —
in particular nothing when `minYear` is now's year or later. -/
theorem ark_C3_yearly_tier (now : JDate) (files : List String) :
    (backupsOf files = [] → yearlyKeys (backupsOf files) now = [])
      ∧ (backupsOf files ≠ [] → (∀ b ∈ backupsOf files, 100 ≤ b.2.year) →
          yearlyKeys (backupsOf files) now
            = (intRange (minYearOf (backupsOf files)) now.year).map
                fun z => keyOf ⟨z, 12, 31⟩) := by
  constructor
  · intro h
    rw [h]
    rfl
  · intro hne hys
    exact yearlyKeys_eval now hne hys

/-- Witness for C3 (amended) with a single 2023 snapshot and `now` in 2024:
the yearly tier is exactly the December 31, 2023 key. -/
theorem ark_C3_yearly_tier_witness :
    yearlyKeys (backupsOf ["export20230101.zip"]) ⟨2024, 3, 15⟩
      = (intRange (minYearOf (backupsOf ["export20230101.zip"]))
          (⟨2024, 3, 15⟩ : JDate).year).map fun z => keyOf ⟨z, 12, 31⟩ :=
  (ark_C3_yearly_tier ⟨2024, 3, 15⟩ ["export20230101.zip"]).2 (by decide) (by decide)

/-- C1 counterexample: `export202403155.zip` does not match the managed
naming convention (its date portion has 9 digits), yet a rotation pass at
2025-01-10 parses it (the fixed 4-2-2 code-unit windows read 2024-03-15),
counts its year 2024 toward `minYear`, and deletes it. -/
theorem ark_C1_unmanaged_counterexample :
    minYearOf (backupsOf ["export202403155.zip"]) = 2024
      ∧ "export202403155.zip" ∈ deleteSet ⟨2025, 1, 10⟩ ["export202403155.zip"] := by
  exact ⟨by decide, by decide⟩

/-- C1 amended: a directory entry that fails the code's actual filter —
it does not start with `export`, does not end with `.zip`, or its UTF-16
code units 6..(length-4) do not parse numerically via `parseInt`'s full
rules (whitespace trimming, optional sign, `0x` hex prefix), yielding an
Invalid Date — is never parsed into the backups list (so it is never
counted toward retention decisions such as `minYear`) and is never
deleted.  Entries that pass that loose filter and parse — possibly via
date rollover (a 9-digit date) or via `parseInt` oddities (a name like
`export 1000001.zip` whose windows parse as ` 100`, `00`, `01`) — are
treated as managed snapshots instead. -/
theorem ark_C1_unmanaged_safety (now : JDate) (files : List String) (f : String)
    (_hmem : f ∈ files) (hbad : isBackupName f = false ∨ parse (sliceName f) = none) :
    f ∉ (backupsOf files).map Prod.fst ∧ f ∉ deleteSet now files := by
  have hnotb : ∀ b : String × JDate, b ∈ backupsOf files → b.1 ≠ f := by
    intro b hb heq
    obtain ⟨_, hname, hparse⟩ := mem_backupsOf_elim hb
    rw [heq] at hname hparse
    rcases hbad with hbad | hbad
    · rw [hname] at hbad
      exact absurd hbad (by decide)
    · rw [hparse] at hbad
      exact Option.some_ne_none _ hbad
  constructor
  · intro hc
    rw [List.mem_map] at hc
    obtain ⟨b, hb, hfst⟩ := hc
    exact hnotb b hb hfst
  · intro hc
    obtain ⟨d, hb, _⟩ := mem_deleteSet_elim hc
    exact hnotb (f, d) hb rfl

/-- Witness for C1 (amended): `notes.txt` is untouched by a rotation pass. -/
theorem ark_C1_unmanaged_safety_witness :
    "notes.txt" ∉ deleteSet ⟨2025, 1, 10⟩ ["notes.txt"] :=
  (ark_C1_unmanaged_safety ⟨2025, 1, 10⟩ ["notes.txt"] "notes.txt" (by decide)
    (Or.inl (by decide))).2

/-- C6 counterexample: in scenario B (`now` = 2024-01-05, exactly the 7
daily-window snapshots 2023-12-30 .. 2024-01-05 on disk), the yearly tier
is NOT empty: `minYear` = 2023 < 2024, so it contributes the December 31,
2023 key (which happens to coincide with a daily-window key). -/
theorem ark_C6_scenarioB_counterexample :
    yearlyKeys
        (backupsOf ["export20231230.zip", "export20231231.zip", "export20240101.zip",
          "export20240102.zip", "export20240103.zip", "export20240104.zip",
          "export20240105.zip"]) ⟨2024, 1, 5⟩
      = ["export20231231.zip"]
      ∧ yearlyKeys
          (backupsOf ["export20231230.zip", "export20231231.zip", "export20240101.zip",
            "export20240102.zip", "export20240103.zip", "export20240104.zip",
            "export20240105.zip"]) ⟨2024, 1, 5⟩ ≠ [] := by
  exact ⟨by decide, by decide⟩

/-- C6 amended: in scenario B the keep-set still equals the 7 daily keys
exactly and the delete-set is empty, and the weekly and monthly tiers
contribute nothing — but the yearly tier contributes the December 31, 2023
key, which is absorbed by the daily window rather than being absent. -/
theorem ark_C6_scenarioB :
    (∀ k : String,
        k ∈ toKeep ⟨2024, 1, 5⟩ ["export20231230.zip", "export20231231.zip",
            "export20240101.zip", "export20240102.zip", "export20240103.zip",
            "export20240104.zip", "export20240105.zip"]
          ↔ k ∈ ["export20240105.zip", "export20240104.zip", "export20240103.zip",
              "export20240102.zip", "export20240101.zip", "export20231231.zip",
              "export20231230.zip"])
      ∧ weeklyKeys ⟨2024, 1, 5⟩ = []
      ∧ monthlyKeys ⟨2024, 1, 5⟩ = []
      ∧ deleteSet ⟨2024, 1, 5⟩ ["export20231230.zip", "export20231231.zip",
          "export20240101.zip", "export20240102.zip", "export20240103.zip",
          "export20240104.zip", "export20240105.zip"] = [] := by
  refine ⟨?_, by decide, by decide, by decide⟩
  intro k
  have hK : toKeep ⟨2024, 1, 5⟩ ["export20231230.zip", "export20231231.zip",
      "export20240101.zip", "export20240102.zip", "export20240103.zip",
      "export20240104.zip", "export20240105.zip"]
    = ["export20240105.zip", "export20240104.zip", "export20240103.zip",
        "export20240102.zip", "export20240101.zip", "export20231231.zip",
        "export20231230.zip", "export20231231.zip"] := by decide
  rw [hK]
  simp only [List.mem_cons, List.not_mem_nil, or_false]
  tauto

/-- C7 counterexample: a single failing `fs.unlink` (here on the first of
two stale snapshots) makes the deletion loop stop with the error: no file
is deleted, and the second file — whose own deletion would have succeeded
— is never processed, contradicting the claimed per-file recovery. -/
theorem ark_C7_abort_counterexample :
    deleteRun
        (fun f => if f = "export20200101.zip" then Except.error ("EPERM") else Except.ok ())
        []
        [("export20200101.zip", ⟨2020, 1, 1⟩), ("export20200102.zip", ⟨2020, 1, 2⟩)]
      = ([], some ("EPERM"))
      ∧ (fun f => if f = "export20200101.zip" then Except.error ("EPERM") else Except.ok ())
          "export20200102.zip" = Except.ok () := by
  exact ⟨rfl, rfl⟩

/-- C7 amended: the deletion loop is fail-fast, not partial-failure
tolerant: when the first not-kept file whose unlink fails is reached, the
loop has deleted exactly the preceding not-kept files, stops with that
error (which propagates to `main`'s catch block and a non-zero exit), and
never processes the remaining files; a missing file whose unlink reports
an error aborts the run the same way. -/
theorem ark_C7_abort (unlink : String → Except String Unit) (keep : List String)
    (pre : List (String × JDate)) (b : String × JDate) (post : List (String × JDate))
    (e : String) (hb1 : b.1 ∉ keep) (hb2 : unlink b.1 = Except.error e)
    (hpre : ∀ g ∈ pre, g.1 ∈ keep ∨ unlink g.1 = Except.ok ()) :
    deleteRun unlink keep (pre ++ b :: post)
      = ((pre.filter fun g => !(keep.contains g.1)).map Prod.fst, some e) := by
  induction pre with
  | nil =>
    show deleteRun unlink keep (b :: post) = _
    unfold deleteRun
    rw [if_neg (by simpa [List.elem_iff] using hb1), hb2]
    rfl
  | cons g rest ih =>
    show deleteRun unlink keep (g :: (rest ++ b :: post)) = _
    by_cases hgk : g.1 ∈ keep
    · unfold deleteRun
      rw [if_pos (by simpa [List.elem_iff] using hgk)]
      rw [ih fun x hx => hpre x (by simp [hx])]
      rw [List.filter_cons_of_neg (by simpa [List.elem_iff] using hgk)]
    · have hg : unlink g.1 = Except.ok () :=
        (hpre g (by simp)).resolve_left hgk
      unfold deleteRun
      rw [if_neg (by simpa [List.elem_iff] using hgk), hg]
      dsimp only
      rw [ih fun x hx => hpre x (by simp [hx])]
      rw [List.filter_cons_of_pos (by simpa [List.elem_iff] using hgk)]
      rfl

/-- Witness for C7 (amended): with one kept file and one deletable file
before the failing one, the run deletes only that one file and stops with
the error; the file after the failure is untouched. -/
theorem ark_C7_abort_witness :
    deleteRun (fun f => if f = "bad.zip" then Except.error ("EPERM") else Except.ok ())
        ["keepme.zip"]
        [("keepme.zip", ⟨2020, 1, 1⟩), ("ok1.zip", ⟨2020, 1, 2⟩), ("bad.zip", ⟨2020, 1, 3⟩),
          ("ok2.zip", ⟨2020, 1, 4⟩)]
      = (["ok1.zip"], some ("EPERM")) := by
  have h := ark_C7_abort
    (fun f => if f = "bad.zip" then Except.error ("EPERM") else Except.ok ())
    ["keepme.zip"]
    [("keepme.zip", ⟨2020, 1, 1⟩), ("ok1.zip", ⟨2020, 1, 2⟩)]
    ("bad.zip", ⟨2020, 1, 3⟩)
    [("ok2.zip", ⟨2020, 1, 4⟩)]
    "EPERM" (by decide) rfl
    (by
      intro g hg
      fin_cases hg
      · exact Or.inl (by decide)
      · exact Or.inr rfl)
  rw [show ([("keepme.zip", (⟨2020, 1, 1⟩ : JDate)), ("ok1.zip", ⟨2020, 1, 2⟩),
      ("bad.zip", ⟨2020, 1, 3⟩), ("ok2.zip", ⟨2020, 1, 4⟩)] : List (String × JDate))
    = [("keepme.zip", ⟨2020, 1, 1⟩), ("ok1.zip", ⟨2020, 1, 2⟩)]
      ++ ("bad.zip", ⟨2020, 1, 3⟩) :: [("ok2.zip", ⟨2020, 1, 4⟩)] from rfl]
  rw [h]
  decide

/-- C10 counterexample: with the junk-but-parsed file `export01000001.zip`
(rolled over to 0099-12-01, so `minYear` = 99) and the clock at 1950-06-15,
the yearly iteration for y = 99 builds December 31 of 1999 — a date in the
strict future of `now` — whose key enters the keep-set, so the well-formed
future-dated snapshot `export19991231.zip` is retained, not deleted. -/
theorem ark_C10_future_counterexample :
    dayNumber ⟨1950, 6, 15⟩ < dayNumber ⟨1999, 12, 31⟩
      ∧ keyOf ⟨1999, 12, 31⟩
          ∈ toKeep ⟨1950, 6, 15⟩ ["export01000001.zip", "export19991231.zip"]
      ∧ keyOf ⟨1999, 12, 31⟩
          ∉ deleteSet ⟨1950, 6, 15⟩ ["export01000001.zip", "export19991231.zip"] := by
  have hkeep : keyOf ⟨1999, 12, 31⟩
      ∈ toKeep ⟨1950, 6, 15⟩ ["export01000001.zip", "export19991231.zip"] := by
    unfold toKeep
    rw [List.mem_append]
    right
    have h99 : minYearOf (backupsOf ["export01000001.zip", "export19991231.zip"]) = 99 :=
      by decide
    unfold yearlyKeys
    rw [if_neg (by decide), h99]
    rw [List.mem_map]
    refine ⟨99, ?_, by decide⟩
    rw [intRange_mem]
    exact ⟨by decide, by decide⟩
  refine ⟨by decide, hkeep, ?_⟩
  intro hc
  obtain ⟨d, _, hnk⟩ := mem_deleteSet_elim hc
  exact hnk hkeep

/-- C10 amended: provided `now` and every parsed snapshot year lie in the
4-digit range 1000..9999 (ruling out the Date constructor's 1900-offset
path shown in the counterexample), every key in the keep-set is the key of
a valid date on or before `now`, and a well-formed snapshot whose encoded
date is strictly in the future of `now` is deleted by the rotation pass
whenever it is present. -/
theorem ark_C10_keep_bounded (now : JDate) (files : List String) (d' : JDate)
    (hv : now.Valid) (h1 : 1000 ≤ now.year) (h2 : now.year ≤ 9999)
    (hbs : ∀ b ∈ backupsOf files, 1000 ≤ b.2.year)
    (hd'v : d'.Valid) (hd'1 : 1000 ≤ d'.year) (hd'2 : d'.year ≤ 9999)
    (hfut : dayNumber now < dayNumber d') :
    (∀ k ∈ toKeep now files,
        ∃ dk : JDate, dk.Valid ∧ dayNumber dk ≤ dayNumber now ∧ k = keyOf dk)
      ∧ (keyOf d' ∈ files → keyOf d' ∈ deleteSet now files) := by
  constructor
  · intro k hk
    obtain ⟨dk, hdk1, hdk2, hdk3, _, _⟩ := toKeep_classified hv h1 h2 hbs k hk
    exact ⟨dk, hdk1, hdk2, hdk3⟩
  · intro hmem
    exact future_deleted hv h1 h2 hbs hd'v hd'1 hd'2 hfut hmem

/-- Witness for C10 (amended): at `now` = 2024-03-15, the future-dated
snapshot for 2025-12-31 is deleted. -/
theorem ark_C10_keep_bounded_witness :
    keyOf ⟨2025, 12, 31⟩ ∈ deleteSet ⟨2024, 3, 15⟩ ["export20251231.zip"] :=
  (ark_C10_keep_bounded ⟨2024, 3, 15⟩ ["export20251231.zip"] ⟨2025, 12, 31⟩
    (by decide) (by decide) (by decide) (by decide) (by decide) (by decide) (by decide)
    (by decide)).2 (by decide)

end Ark
